import Mathlib

/-!
Verification of the parlaylib sample-sort subsystem
(`include/parlay/internal/sample_sort.h`, `include/parlay/destructive_move.h`,
`include/parlay/utilities.h`) against its natural-language specification.

The C++ code is shallowly embedded: contiguous memory regions become Lean
`List`s, `size_t` arithmetic becomes `Nat` arithmetic (the derived sort
parameters are far below `2^64`, so no wrap-around can occur in any quantity
we model; `hash64` models the `uint64_t` wrap-around explicitly with
`% 2^64`), comparators become `Bool`-valued binary functions, and type-level
properties of the element type (`std::is_pointer`, `sizeof(T) > 8`) become a
record of flags.  Components of the repository that are referenced by
`sample_sort.h` but whose sources are not part of this snapshot
(`quicksort.h`, `bucket_sort.h`, `transpose.h`, `sequence_ops.h`) are
modelled from the specification; each such definition carries a doc comment
saying so.
-/

namespace ParlaySort

/-- A strict weak ordering, the precondition the spec places on comparators:
irreflexive, transitive, and with transitive incomparability (stated as:
the complement relation `fun a b => less b a = false` is transitive). -/
structure SWO {α : Type _} (less : α → α → Bool) : Prop where
  irrefl : ∀ a, less a a = false
  trans : ∀ a b c, less a b = true → less b c = true → less a c = true
  nlt_trans : ∀ a b c, less b a = false → less c b = false → less c a = false

/-- Two elements are equivalent under a comparator when neither is less
than the other. -/
def Equiv {α : Type _} (less : α → α → Bool) (a b : α) : Prop :=
  less a b = false ∧ less b a = false

/-- A list is non-decreasing under `less`: no later element is strictly
less than an earlier one. -/
def SortedND {α : Type _} (less : α → α → Bool) (l : List α) : Prop :=
  l.Pairwise (fun a b => less b a = false)

instance {α : Type _} (less : α → α → Bool) (l : List α) :
    Decidable (SortedND less l) :=
  List.instDecidablePairwise l


/-! ## Embedding of `get_bucket_counts` (sample_sort.h lines 31-63)

The C++ walks the sorted block `sA` and the sorted pivots `sB` with three
iterators.  The embedding `gbc_go` mirrors one iteration of the outer
`while (true)` loop per call: `b` is the pivot `*itB`, `bs` the remaining
pivots, `as` the remaining block elements.  The first inner loop is the
`takeWhile`; an exhausted block corresponds to the early `return` (the
remaining counters keep the zero written by the initializing loop), an
exhausted pivot list to the `break` that stores the tail count.  The second
inner loop (guarded by `!(f(*(itB-1), *itB))`, i.e. two adjacent
equal pivots) is the second `takeWhile`. -/

variable {α : Type _}

def gbc_go (f : α → α → Bool) (as : List α) (b : α) (bs : List α) : List ℕ :=
  let c1 := (as.takeWhile (fun a => f a b)).length
  let as1 := as.dropWhile (fun a => f a b)
  if as1.isEmpty then c1 :: List.replicate (bs.length + 1) 0
  else
    match bs with
    | [] => [c1, as1.length]
    | b' :: bs' =>
      if f b b' then c1 :: gbc_go f as1 b' bs'
      else
        let c2 := (as1.takeWhile (fun a => !f b' a)).length
        let as2 := as1.dropWhile (fun a => !f b' a)
        if as2.isEmpty then c1 :: c2 :: List.replicate (bs'.length + 1) 0
        else
          match bs' with
          | [] => [c1, c2, as2.length]
          | b'' :: bs'' => c1 :: c2 :: gbc_go f as2 b'' bs''

/-- Embedding of `get_bucket_counts`: when the block or the pivot sequence is
empty the function returns without touching `sC` (which at the call sites is
uninitialized; we pass its previous contents `sC` through). -/
def get_bucket_counts (f : α → α → Bool) (sA sB : List α) (sC : List ℕ) :
    List ℕ :=
  if sA.length = 0 ∨ sB.length = 0 then sC
  else
    match sB with
    | [] => sC
    | b :: bs => gbc_go f sA b bs

/-- The bucket index the counting walk assigns to an element `x`, as a
function of the pivots `b :: bs`.  Derived from the iterator walk of
`get_bucket_counts`: an element strictly below the current pivot belongs to
the current bucket; when two adjacent pivots are equal, the elements
equivalent to them are placed in the bucket between them. -/
def bucketIdxGo (f : α → α → Bool) (x : α) (b : α) (bs : List α) : ℕ :=
  if f x b then 0
  else
    match bs with
    | [] => 1
    | b' :: bs' =>
      if f b b' then 1 + bucketIdxGo f x b' bs'
      else if !f b' x then 1
      else
        match bs' with
        | [] => 2
        | b'' :: bs'' => 2 + bucketIdxGo f x b'' bs''
termination_by bs.length
decreasing_by
  · simp
  · simp
    omega

/-- Bucket index of `x` for a pivot list `P` (`0` when there are no pivots,
matching the early return of `get_bucket_counts`). -/
def bucketIdx (f : α → α → Bool) (P : List α) (x : α) : ℕ :=
  match P with
  | [] => 0
  | b :: bs => bucketIdxGo f x b bs

/-! ## Tunable parameters and helpers (sample_sort.h lines 26-27,
utilities.h lines 126-136 and 179-189) -/

def QUICKSORT_THRESHOLD : ℕ := 16384

def OVER_SAMPLE : ℕ := 8

/-- The loop of `log2_up` from utilities.h: count right shifts of `i - 1`
until zero. -/
def log2_up_go (a b : ℕ) : ℕ :=
  if 0 < b then log2_up_go (a + 1) (b / 2) else a
termination_by b

def log2_up (i : ℕ) : ℕ := log2_up_go 0 (i - 1)

/-- The 64-bit mixer `hash64` from utilities.h, with the `uint64_t`
wrap-around made explicit. -/
def hash64 (u : ℕ) : ℕ :=
  let v1 := (u * 3935559000370003845 + 2691343689449507681) % 2 ^ 64
  let v2 := v1 ^^^ (v1 >>> 21)
  let v3 := (v2 ^^^ (v2 <<< 37)) % 2 ^ 64
  let v4 := v3 ^^^ (v3 >>> 4)
  let v5 := (v4 * 4768777513237032717) % 2 ^ 64
  let v6 := (v5 ^^^ (v5 <<< 20)) % 2 ^ 64
  let v7 := v6 ^^^ (v6 >>> 41)
  (v7 ^^^ (v7 <<< 5)) % 2 ^ 64

/-- The two compile-time element-type properties the drivers dispatch on:
`std::is_pointer<value_type>::value` and `sizeof(value_type) > 8`. -/
structure ElemFlags where
  isPointer : Bool
  sizeGt8 : Bool

/-- `bucket_quotient` as derived by both drivers: initialized to 4, set to 2
for pointer types, else to 3 for types larger than 8 bytes. -/
def bucket_quotient (fl : ElemFlags) : ℕ :=
  if fl.isPointer then 2 else if fl.sizeGt8 then 3 else 4

/-- `block_quotient` as derived by both drivers: initialized to 4, set to 3
for pointer types and for types larger than 8 bytes. -/
def block_quotient (fl : ElemFlags) : ℕ :=
  if fl.isPointer then 3 else if fl.sizeGt8 then 3 else 4

/-- `size_t sqrt = static_cast<size_t>(std::sqrt(n))`.  The double-precision
square root truncated to an integer equals the exact integer square root for
every `n` below `2^52` (a non-square `n` is at least `1` away from the
nearest square while the rounding error of `sqrt` is below half an ulp), so
the cast is modelled as `Nat.sqrt`. -/
def sqrt_of (n : ℕ) : ℕ := Nat.sqrt n

def num_blocks (n : ℕ) (fl : ElemFlags) : ℕ :=
  1 <<< log2_up (sqrt_of n / block_quotient fl + 1)

def block_size (n : ℕ) (fl : ElemFlags) : ℕ :=
  (n - 1) / num_blocks n fl + 1

def num_buckets (n : ℕ) (fl : ElemFlags) : ℕ :=
  sqrt_of n / bucket_quotient fl + 1

/-! ## The sequential base sorts (sample_sort.h lines 65-82)

`quicksort.h` and `bucket_sort.h` are not part of this source snapshot, so
the two base sorts are modelled from the specification (§4.3). -/

/-- Modelled from the spec: `quicksort` (its source, quicksort.h, is
missing).  §4.3 describes an in-place unstable comparison sort with
three-way partitioning around a pivot; the equal-to-pivot region is kept in
the middle and the two strict regions are sorted recursively. -/
def quicksort (less : α → α → Bool) : List α → List α
  | [] => []
  | p :: xs =>
    quicksort less (xs.filter (fun x => less x p)) ++
      p :: xs.filter (fun x => !less x p && !less p x) ++
      quicksort less (xs.filter (fun x => less p x))
termination_by l => l.length
decreasing_by
  · simp only [List.length_cons]
    exact Nat.lt_succ_of_le (List.length_filter_le _ _)
  · simp only [List.length_cons]
    exact Nat.lt_succ_of_le (List.length_filter_le _ _)

/-- Modelled from the spec: `bucket_sort` (its source, bucket_sort.h, is
missing).  §4.3 requires a comparison sort that is stable when stability is
requested; it is modelled as a stable insertion sort (which also satisfies
the contract when stability is not requested). -/
def bucket_sort (less : α → α → Bool) (l : List α) (stable : Bool) : List α :=
  l.insertionSort (fun a b => less b a = false)

/-- `seq_sort_inplace` (sample_sort.h lines 65-72): quicksort for large or
pointer element types when stability is not requested, bucket sort
otherwise. -/
def seq_sort_inplace (fl : ElemFlags) (less : α → α → Bool) (stable : Bool)
    (A : List α) : List α :=
  if (fl.sizeGt8 || fl.isPointer) && !stable then quicksort less A
  else bucket_sort less A stable

/-- `seq_sort_` (sample_sort.h lines 74-82): assign every input slot to the
output (`assign_dispatch` per slot), then sort the output in place.  In the
list-of-values model the materialized output equals the input list. -/
def seq_sort_ (fl : ElemFlags) (less : α → α → Bool) (stable : Bool)
    (In : List α) : List α :=
  seq_sort_inplace fl less stable In

/-! ## Blocking and the transpose (sequence_ops.h / transpose.h are not in
this snapshot) -/

/-- Modelled from the spec: the blocking of `sliced_for` (sequence_ops.h is
missing).  §4.5: the input is processed in consecutive blocks of
`block_size` elements, the last block possibly shorter. -/
def chunks (bsz : ℕ) : List α → List (List α)
  | [] => []
  | x :: xs => (x :: xs.take (bsz - 1)) :: chunks bsz (xs.drop (bsz - 1))
termination_by l => l.length
decreasing_by
  simp only [List.length_cons, List.length_drop]
  omega

/-- The `j`-th sub-run of a sorted block, as delimited by the block's count
vector: it starts at the sum of the counts of the earlier buckets and has
length `counts[j]`. -/
def subrun (cnt : List ℕ) (j : ℕ) (blk : List α) : List α :=
  (blk.drop ((cnt.take j).sum)).take (cnt.getD j 0)

/-- Modelled from the spec: `transpose_buckets` (transpose.h is missing).
§4.6: bucket `j` of the destination is the concatenation, in block order,
of every block's `j`-th sub-run as delimited by that block's count vector;
buckets are laid out consecutively (at the prefix sums of the bucket
sizes). -/
def transpose_buckets (k : ℕ) (blocks : List (List α))
    (counts : List (List ℕ)) : List (List α) :=
  (List.range k).map
    (fun j => ((blocks.zip counts).map (fun p => subrun p.2 j p.1)).flatten)

/-! ## The copying driver `sample_sort_` (sample_sort.h lines 195-263) -/

def sample_sort_ (fl : ElemFlags) (less : α → α → Bool) (stable : Bool)
    (In : List α) : List α :=
  if In.length < QUICKSORT_THRESHOLD then seq_sort_ fl less stable In
  else
    match In with
    | [] => []
    | d :: _ =>
      let n := In.length
      let numBuckets := num_buckets n fl
      let blockSize := block_size n fl
      let sampleSetSize := numBuckets * OVER_SAMPLE
      let sample_set := quicksort less
        ((List.range sampleSetSize).map (fun i => In.getD (hash64 i % n) d))
      let pivots := (List.range (numBuckets - 1)).map
        (fun i => sample_set.getD (OVER_SAMPLE * i) d)
      let sortedBlocks := (chunks blockSize In).map (seq_sort_ fl less stable)
      let counts := sortedBlocks.map (fun blk =>
        get_bucket_counts less blk pivots (List.replicate numBuckets 0))
      let buckets := transpose_buckets numBuckets sortedBlocks counts
      (((List.range numBuckets).zip buckets).map (fun p =>
        if p.1 == 0 || p.1 == numBuckets - 1 ||
            less (pivots.getD (p.1 - 1) d) (pivots.getD p.1 d)
        then seq_sort_inplace fl less stable p.2
        else p.2)).flatten

/-! ## The in-place driver `sample_sort_inplace_` (lines 87-189) -/

/-- One swap of the in-place sampling loop; out-of-range indices leave the
list unchanged (they never occur at the call site). -/
def swapL (l : List α) (i j : ℕ) : List α :=
  match l.get? i, l.get? j with
  | some a, some b => (l.set i b).set j a
  | _, _ => l

/-- The prefix Knuth-shuffle of lines 129-132: swap position `i` with
`i + hash64(i) % (n - i)` for `i` below the sample size. -/
def prefix_shuffle (n s : ℕ) (l : List α) : List α :=
  (List.range s).foldl (fun acc i => swapL acc i (i + hash64 i % (n - i))) l

def sample_sort_inplace_ (fl : ElemFlags) (less : α → α → Bool)
    (In : List α) : List α :=
  if In.length < QUICKSORT_THRESHOLD then seq_sort_inplace fl less false In
  else
    match In with
    | [] => []
    | d :: _ =>
      let n := In.length
      let numBuckets := num_buckets n fl
      let blockSize := block_size n fl
      let sampleSetSize := blockSize
      let stride := sampleSetSize / (numBuckets - 1)
      let shuffled := prefix_shuffle n sampleSetSize In
      let sample_sorted := quicksort less (shuffled.take sampleSetSize)
      let pivots := (List.range (numBuckets - 1)).map
        (fun i => sample_sorted.getD (stride * i) d)
      let restBlocks := (chunks blockSize (shuffled.drop sampleSetSize)).map
        (fun blk => seq_sort_ fl less false blk)
      let blocks := sample_sorted :: restBlocks
      let counts := blocks.map (fun blk =>
        get_bucket_counts less blk pivots (List.replicate numBuckets 0))
      let buckets := transpose_buckets numBuckets blocks counts
      (buckets.map (fun bkt => seq_sort_inplace fl less false bkt)).flatten

/-! ## Entry points (sample_sort.h lines 265-289) and the count-index
width selection -/

/-- `sample_sort`: allocate the output, pick the count-index width by
comparing `n` against `std::numeric_limits<unsigned int>::max()`
(`4294967295`), and run the copying driver.  The counters are modelled as
unbounded naturals (each counter is at most `block_size`, which fits the
chosen machine width), so both width branches compute the same list. -/
def sample_sort (fl : ElemFlags) (less : α → α → Bool) (stable : Bool)
    (A : List α) : List α :=
  if A.length < 4294967295 then sample_sort_ fl less stable A
  else sample_sort_ fl less stable A

def sample_sort_inplace (fl : ElemFlags) (less : α → α → Bool)
    (A : List α) : List α :=
  if A.length < 4294967295 then sample_sort_inplace_ fl less A
  else sample_sort_inplace_ fl less A

/-- The count-index width (in bits) chosen by `sample_sort`:
32 exactly when `n < std::numeric_limits<unsigned int>::max()`. -/
def count_width_sample_sort (n : ℕ) : ℕ :=
  if n < 4294967295 then 32 else 64

/-- The count-index width (in bits) chosen by `sample_sort_inplace`
(lines 283-288), the same comparison. -/
def count_width_sample_sort_inplace (n : ℕ) : ℕ :=
  if n < 4294967295 then 32 else 64

/-- The width selection in the words of the spec (§4.7): 32-bit when
`n < 2^32`, 64-bit otherwise. -/
def spec_count_width (n : ℕ) : ℕ :=
  if n < 2 ^ 32 then 32 else 64

/-! ## Memory-state model of the copying driver, for the frame property -/

/-- The three memory regions a copying sort call touches: the borrowed
input, the scratch buffer, and the output. -/
structure SortState (α : Type _) where
  inp : List α
  tmp : List α
  outp : List α

/-- The copying driver as a transformer of the three memory regions,
phase by phase.  Every write of the C++ targets `Tmp` (the block sorts,
with `uninitialized_copy_tag`), `Out` (the transpose and the final
per-bucket sorts) or freshly allocated local sequences; the input region
is only ever read.  The transpose relocates every element out of `Tmp`,
leaving it uninitialized. -/
def sample_sort_run (fl : ElemFlags) (less : α → α → Bool) (stable : Bool)
    (s : SortState α) : SortState α :=
  if s.inp.length < QUICKSORT_THRESHOLD then
    { s with outp := seq_sort_ fl less stable s.inp }
  else
    match s.inp with
    | [] => s
    | d :: _ =>
      let n := s.inp.length
      let numBuckets := num_buckets n fl
      let blockSize := block_size n fl
      let sampleSetSize := numBuckets * OVER_SAMPLE
      let sample_set := quicksort less
        ((List.range sampleSetSize).map (fun i => s.inp.getD (hash64 i % n) d))
      let pivots := (List.range (numBuckets - 1)).map
        (fun i => sample_set.getD (OVER_SAMPLE * i) d)
      let sortedBlocks := (chunks blockSize s.inp).map
        (seq_sort_ fl less stable)
      let s1 := { s with tmp := sortedBlocks.flatten }
      let counts := sortedBlocks.map (fun blk =>
        get_bucket_counts less blk pivots (List.replicate numBuckets 0))
      let buckets := transpose_buckets numBuckets sortedBlocks counts
      let s2 := { s1 with tmp := [], outp := buckets.flatten }
      { s2 with outp := (((List.range numBuckets).zip buckets).map (fun p =>
          if p.1 == 0 || p.1 == numBuckets - 1 ||
              less (pivots.getD (p.1 - 1) d) (pivots.getD p.1 d)
          then seq_sort_inplace fl less stable p.2
          else p.2)).flatten }

/-- The public entry `sample_sort` acting on the memory regions: the output
is freshly allocated (uninitialized, modelled empty) and the scratch is
allocated inside the driver. -/
def sample_sort_entry_run (fl : ElemFlags) (less : α → α → Bool)
    (stable : Bool) (A : List α) : SortState α :=
  sample_sort_run fl less stable ⟨A, [], []⟩

/-! ## `destructive_move` (destructive_move.h) -/

/-- The two type-trait inputs of `is_trivially_destructive_movable`:
`std::is_trivially_move_constructible` and
`std::is_trivially_destructible`. -/
structure TypeDesc where
  trivMoveCtor : Bool
  trivDtor : Bool

/-- `is_trivially_destructive_movable` (destructive_move.h lines 22-25). -/
def is_trivially_destructive_movable (T : TypeDesc) : Bool :=
  T.trivMoveCtor && T.trivDtor

/-- A memory slot: uninitialized, or initialized with a value. -/
inductive Slot (α : Type _) where
  | uninit : Slot α
  | init : α → Slot α
deriving DecidableEq

/-- The primitive memory operations `destructive_move` can perform, recorded
as a trace: a bitwise copy of a number of bytes, a move construction, or a
destructor call on the source. -/
inductive MemOp where
  | memcpyBytes : ℕ → MemOp
  | moveConstruct : MemOp
  | destroy : MemOp
deriving DecidableEq

/-- `destructive_move` (destructive_move.h lines 45-56): for trivially
destructive-movable types a single `memcpy` of `sizeof(T)` bytes; otherwise
placement-move-construction of the destination followed by destruction of
the source.  Returns the new destination slot, the new source slot, and the
trace of operations performed. -/
def destructive_move (T : TypeDesc) (sizeofT : ℕ) (dst src : Slot α) :
    Slot α × Slot α × List MemOp :=
  if is_trivially_destructive_movable T then
    (src, Slot.uninit, [MemOp.memcpyBytes sizeofT])
  else
    (src, Slot.uninit, [MemOp.moveConstruct, MemOp.destroy])

/-! ## Spec-side parameter formulas (§4.4), for the refinement claims -/

def spec_floor_sqrt (n : ℕ) : ℕ := Nat.sqrt n

/-- The least power of two at least `x` (the spec's "next power of two
above", read inclusively). -/
def spec_next_pow2 (x : ℕ) : ℕ := 2 ^ Nat.clog 2 x

def spec_num_blocks (n : ℕ) (fl : ElemFlags) : ℕ :=
  spec_next_pow2 (spec_floor_sqrt n / block_quotient fl + 1)

def spec_block_size (n : ℕ) (fl : ElemFlags) : ℕ :=
  (n + spec_num_blocks n fl - 1) / spec_num_blocks n fl

def spec_num_buckets (n : ℕ) (fl : ElemFlags) : ℕ :=
  spec_floor_sqrt n / bucket_quotient fl + 1

/-! ## Concrete comparators for the closed instances -/

def natLess (a b : ℕ) : Bool := decide (a < b)

/-- Comparing index-tagged values by their value component only; running
the generic driver on `A.enum` with this comparator tracks where each
original position ends up. -/
def pairLess (less : α → α → Bool) (u v : ℕ × α) : Bool := less u.2 v.2

/-- Boolean equivalence under a comparator (neither element below the
other), used to state stability: a sort is stable when filtering the output
to any equivalence class returns that class in input order. -/
def equivB (less : α → α → Bool) (a b : α) : Bool := !less a b && !less b a

/-- Asymmetry, derived from irreflexivity and transitivity. -/
theorem SWO.asymm {α : Type _} {less : α → α → Bool} (h : SWO less)
    {a b : α} (hab : less a b = true) : less b a = false := by
  by_contra hba
  rw [Bool.not_eq_false] at hba
  have := h.trans a b a hab hba
  rw [h.irrefl a] at this
  exact Bool.false_ne_true this

/-- Composition: `a < b` and `b ≲ c` give `a < c`. -/
theorem SWO.lt_of_lt_of_nlt {α : Type _} {less : α → α → Bool} (h : SWO less)
    {a b c : α} (hab : less a b = true) (hcb : less c b = false) :
    less a c = true := by
  by_contra hac
  rw [Bool.not_eq_true] at hac
  have := h.nlt_trans b c a hcb hac
  rw [hab] at this
  exact Bool.false_ne_true this.symm

/-- Composition: `a ≲ b` and `b < c` give `a < c`. -/
theorem SWO.lt_of_nlt_of_lt {α : Type _} {less : α → α → Bool} (h : SWO less)
    {a b c : α} (hba : less b a = false) (hbc : less b c = true) :
    less a c = true := by
  by_contra hac
  rw [Bool.not_eq_true] at hac
  have := h.nlt_trans c a b hac hba
  rw [hbc] at this
  exact Bool.false_ne_true this.symm

theorem SortedND.nil {α : Type _} (less : α → α → Bool) : SortedND less [] :=
  List.Pairwise.nil

theorem SortedND.tail_of_cons {α : Type _} {less : α → α → Bool} {a : α}
    {l : List α} (h : SortedND less (a :: l)) : SortedND less l :=
  (List.pairwise_cons.mp h).2

theorem SortedND.sublist {α : Type _} {less : α → α → Bool} {l l' : List α}
    (hs : List.Sublist l' l) (h : SortedND less l) : SortedND less l' :=
  List.Pairwise.sublist hs h

section ListHelpers

variable {α : Type _}

/-- On a list where the predicate is downward closed along the list order,
`takeWhile` agrees with `filter`. -/
theorem takeWhile_eq_filter {p : α → Bool} :
    ∀ (l : List α), (l.Pairwise fun a y => p y = true → p a = true) →
      l.takeWhile p = l.filter p
  | [], _ => rfl
  | a :: l, h => by
    rcases List.pairwise_cons.mp h with ⟨h1, h2⟩
    by_cases hp : p a = true
    · simp only [List.takeWhile_cons, List.filter_cons, hp, if_true,
        takeWhile_eq_filter l h2]
    · have hnil : l.filter p = [] := List.filter_eq_nil_iff.mpr fun x hx hpx =>
        hp (h1 x hx hpx)
      simp only [List.takeWhile_cons, List.filter_cons, hp, if_false, hnil]
      simp [Bool.not_eq_true] at hp
      simp [hp]

/-- On a list where the predicate is downward closed along the list order,
`dropWhile` agrees with filtering by the negated predicate. -/
theorem dropWhile_eq_filter_not {p : α → Bool} :
    ∀ (l : List α), (l.Pairwise fun a y => p y = true → p a = true) →
      l.dropWhile p = l.filter (fun a => !p a)
  | [], _ => rfl
  | a :: l, h => by
    rcases List.pairwise_cons.mp h with ⟨h1, h2⟩
    by_cases hp : p a = true
    · simp only [List.dropWhile_cons, List.filter_cons, hp, if_true,
        dropWhile_eq_filter_not l h2]
      simp
    · have hall : l.filter (fun a => !p a) = l := List.filter_eq_self.mpr
        fun x hx => by
          by_contra hc
          simp only [Bool.not_eq_true, Bool.not_eq_false'] at hc
          exact hp (h1 x hx hc)
      simp only [List.dropWhile_cons, List.filter_cons, hp, if_false, hall]
      simp [Bool.not_eq_true] at hp
      simp [hp]

/-- Mapping the constant zero over a range is a replicate of zeros. -/
theorem map_range_zero (m : ℕ) :
    (List.range m).map (fun _ => (0 : ℕ)) = List.replicate m 0 := by
  induction m with
  | zero => rfl
  | succ n ih =>
    rw [List.range_succ_eq_map, List.map_cons, List.map_map, List.replicate_succ]
    exact congrArg (0 :: ·) (by rw [show ((fun _ => (0:ℕ)) ∘ Nat.succ) = (fun _ => (0:ℕ)) from rfl]; exact ih)

end ListHelpers

section GbcBranches

theorem gbc_go_empty {f : α → α → Bool} {as : List α} {b : α} (bs : List α)
    (he : (as.dropWhile (fun a => f a b)).isEmpty = true) :
    gbc_go f as b bs =
      (as.takeWhile (fun a => f a b)).length ::
        List.replicate (bs.length + 1) 0 := by
  rw [gbc_go.eq_def]
  dsimp only
  rw [if_pos he]

theorem gbc_go_nil {f : α → α → Bool} {as : List α} {b : α}
    (he : (as.dropWhile (fun a => f a b)).isEmpty = false) :
    gbc_go f as b [] =
      [(as.takeWhile (fun a => f a b)).length,
       (as.dropWhile (fun a => f a b)).length] := by
  rw [gbc_go.eq_def]
  dsimp only
  rw [if_neg (by simp [he])]

theorem gbc_go_distinct {f : α → α → Bool} {as : List α} {b b' : α}
    (bs' : List α)
    (he : (as.dropWhile (fun a => f a b)).isEmpty = false)
    (hd : f b b' = true) :
    gbc_go f as b (b' :: bs') =
      (as.takeWhile (fun a => f a b)).length ::
        gbc_go f (as.dropWhile (fun a => f a b)) b' bs' := by
  rw [gbc_go.eq_def]
  dsimp only
  rw [if_neg (by simp [he]), if_pos hd]

theorem gbc_go_eq_empty2 {f : α → α → Bool} {as : List α} {b b' : α}
    (bs' : List α)
    (he : (as.dropWhile (fun a => f a b)).isEmpty = false)
    (hd : f b b' = false)
    (he2 : ((as.dropWhile (fun a => f a b)).dropWhile
        (fun a => !f b' a)).isEmpty = true) :
    gbc_go f as b (b' :: bs') =
      (as.takeWhile (fun a => f a b)).length ::
      ((as.dropWhile (fun a => f a b)).takeWhile (fun a => !f b' a)).length ::
        List.replicate (bs'.length + 1) 0 := by
  rw [gbc_go.eq_def]
  dsimp only
  rw [if_neg (by simp [he]), if_neg (by simp [hd]), if_pos he2]

theorem gbc_go_eq_nil2 {f : α → α → Bool} {as : List α} {b b' : α}
    (he : (as.dropWhile (fun a => f a b)).isEmpty = false)
    (hd : f b b' = false)
    (he2 : ((as.dropWhile (fun a => f a b)).dropWhile
        (fun a => !f b' a)).isEmpty = false) :
    gbc_go f as b [b'] =
      [(as.takeWhile (fun a => f a b)).length,
       ((as.dropWhile (fun a => f a b)).takeWhile (fun a => !f b' a)).length,
       ((as.dropWhile (fun a => f a b)).dropWhile (fun a => !f b' a)).length] := by
  rw [gbc_go.eq_def]
  dsimp only
  rw [if_neg (by simp [he]), if_neg (by simp [hd]), if_neg (by simp [he2])]

theorem gbc_go_eq_rec {f : α → α → Bool} {as : List α} {b b' b'' : α}
    (bs'' : List α)
    (he : (as.dropWhile (fun a => f a b)).isEmpty = false)
    (hd : f b b' = false)
    (he2 : ((as.dropWhile (fun a => f a b)).dropWhile
        (fun a => !f b' a)).isEmpty = false) :
    gbc_go f as b (b' :: b'' :: bs'') =
      (as.takeWhile (fun a => f a b)).length ::
      ((as.dropWhile (fun a => f a b)).takeWhile (fun a => !f b' a)).length ::
        gbc_go f ((as.dropWhile (fun a => f a b)).dropWhile (fun a => !f b' a))
          b'' bs'' := by
  rw [gbc_go.eq_def]
  dsimp only
  rw [if_neg (by simp [he]), if_neg (by simp [hd]), if_neg (by simp [he2])]

end GbcBranches

section BucketIdxLemmas

variable {f less : α → α → Bool} {x b b' b'' : α}

theorem bIdx_of_lt (bs : List α) (h : f x b = true) :
    bucketIdxGo f x b bs = 0 := by
  rw [bucketIdxGo.eq_def]
  simp [h]

theorem bIdx_nil (h : f x b = false) : bucketIdxGo f x b [] = 1 := by
  rw [bucketIdxGo.eq_def]
  simp [h]

theorem bIdx_cons_distinct (bs' : List α) (h : f x b = false)
    (hbb : f b b' = true) :
    bucketIdxGo f x b (b' :: bs') = 1 + bucketIdxGo f x b' bs' := by
  rw [bucketIdxGo.eq_def]
  simp [h, hbb]

theorem bIdx_cons_eq_le (bs' : List α) (h : f x b = false)
    (hbb : f b b' = false) (hx : f b' x = false) :
    bucketIdxGo f x b (b' :: bs') = 1 := by
  rw [bucketIdxGo.eq_def]
  simp [h, hbb, hx]

theorem bIdx_cons_eq_gt_nil (h : f x b = false) (hbb : f b b' = false)
    (hx : f b' x = true) : bucketIdxGo f x b [b'] = 2 := by
  rw [bucketIdxGo.eq_def]
  simp [h, hbb, hx]

theorem bIdx_cons_eq_gt (bs'' : List α) (h : f x b = false)
    (hbb : f b b' = false) (hx : f b' x = true) :
    bucketIdxGo f x b (b' :: b'' :: bs'') = 2 + bucketIdxGo f x b'' bs'' := by
  rw [bucketIdxGo.eq_def]
  simp [h, hbb, hx]

/-- When `x` is not below the first pivot its bucket index is positive. -/
theorem bIdx_pos (bs : List α) (h : f x b = false) :
    1 ≤ bucketIdxGo f x b bs := by
  match bs with
  | [] => rw [bIdx_nil h]
  | b' :: bs' =>
    by_cases hbb : f b b' = true
    · rw [bIdx_cons_distinct bs' h hbb]
      omega
    · rw [Bool.not_eq_true] at hbb
      by_cases hx : f b' x = true
      · match bs' with
        | [] =>
          rw [bIdx_cons_eq_gt_nil h hbb hx]
          omega
        | b'' :: bs'' =>
          rw [bIdx_cons_eq_gt bs'' h hbb hx]
          omega
      · rw [Bool.not_eq_true] at hx
        rw [bIdx_cons_eq_le bs' h hbb hx]

theorem bIdx_eq_zero_iff (bs : List α) :
    bucketIdxGo f x b bs = 0 ↔ f x b = true := by
  constructor
  · intro h0
    by_contra hx
    rw [Bool.not_eq_true] at hx
    have := bIdx_pos bs hx
    omega
  · exact bIdx_of_lt bs

/-- In the equal-adjacent-pivot case with `b' < x` the bucket index is at
least `2`. -/
theorem bIdx_ge_two (bs' : List α) (h : f x b = false) (hbb : f b b' = false)
    (hx : f b' x = true) : 2 ≤ bucketIdxGo f x b (b' :: bs') := by
  match bs' with
  | [] => rw [bIdx_cons_eq_gt_nil h hbb hx]
  | b'' :: bs'' =>
    rw [bIdx_cons_eq_gt bs'' h hbb hx]
    omega

/-- The bucket index never exceeds the number of buckets minus one. -/
theorem bIdx_le : ∀ (bs : List α) (b : α), bucketIdxGo f x b bs ≤ bs.length + 1
  | [], b => by
    by_cases h : f x b = true
    · rw [bIdx_of_lt [] h]
      omega
    · rw [Bool.not_eq_true] at h
      rw [bIdx_nil h]
      omega
  | b' :: bs', b => by
    by_cases h : f x b = true
    · rw [bIdx_of_lt _ h]
      omega
    · rw [Bool.not_eq_true] at h
      by_cases hbb : f b b' = true
      · rw [bIdx_cons_distinct bs' h hbb]
        have := bIdx_le bs' b'
        simp only [List.length_cons]
        omega
      · rw [Bool.not_eq_true] at hbb
        by_cases hx : f b' x = true
        · match bs' with
          | [] => rw [bIdx_cons_eq_gt_nil h hbb hx]; simp
          | b'' :: bs'' =>
            rw [bIdx_cons_eq_gt bs'' h hbb hx]
            have := bIdx_le bs'' b''
            simp only [List.length_cons]
            omega
        · rw [Bool.not_eq_true] at hx
          rw [bIdx_cons_eq_le bs' h hbb hx]
          omega

end BucketIdxLemmas

section BucketIdxSWO

variable {less : α → α → Bool} {x y : α}

/-- Comparisons against any third element are invariant under equivalence
(left argument). -/
theorem SWO.lt_congr_left (h : SWO less) (hxy : Equiv less x y) (z : α) :
    less x z = less y z := by
  cases hv : less y z with
  | true => exact @SWO.lt_of_nlt_of_lt α less h x y z hxy.2 hv
  | false =>
    by_contra hc
    rw [Bool.not_eq_false] at hc
    have := @SWO.lt_of_nlt_of_lt α less h y x z hxy.1 hc
    rw [hv] at this
    exact Bool.false_ne_true this

/-- Comparisons against any third element are invariant under equivalence
(right argument). -/
theorem SWO.lt_congr_right (h : SWO less) (hxy : Equiv less x y) (z : α) :
    less z x = less z y := by
  cases hv : less z y with
  | true => exact @SWO.lt_of_lt_of_nlt α less h z y x hv hxy.1
  | false =>
    by_contra hc
    rw [Bool.not_eq_false] at hc
    have := @SWO.lt_of_lt_of_nlt α less h z x y hc hxy.2
    rw [hv] at this
    exact Bool.false_ne_true this

/-- The bucket index only depends on the equivalence class of the element. -/
theorem bIdx_equiv_congr (h : SWO less) (hxy : Equiv less x y) :
    ∀ (bs : List α) (b : α),
      bucketIdxGo less x b bs = bucketIdxGo less y b bs
  | [], b => by
    have hxb := h.lt_congr_left hxy b
    by_cases hyb : less y b = true
    · have h1 : less x b = true := by rw [hxb]; exact hyb
      rw [bIdx_of_lt _ h1, bIdx_of_lt _ hyb]
    · rw [Bool.not_eq_true] at hyb
      have h1 : less x b = false := by rw [hxb]; exact hyb
      rw [bIdx_nil h1, bIdx_nil hyb]
  | b' :: bs', b => by
    have hxb := h.lt_congr_left hxy b
    have hbx' := h.lt_congr_right hxy b'
    by_cases hyb : less y b = true
    · have h1 : less x b = true := by rw [hxb]; exact hyb
      rw [bIdx_of_lt _ h1, bIdx_of_lt _ hyb]
    · rw [Bool.not_eq_true] at hyb
      have h1 : less x b = false := by rw [hxb]; exact hyb
      by_cases hbb : less b b' = true
      · rw [bIdx_cons_distinct _ h1 hbb, bIdx_cons_distinct _ hyb hbb,
          bIdx_equiv_congr h hxy bs' b']
      · rw [Bool.not_eq_true] at hbb
        by_cases hby : less b' y = true
        · have h2 : less b' x = true := by rw [hbx']; exact hby
          match bs' with
          | [] =>
            rw [bIdx_cons_eq_gt_nil h1 hbb h2, bIdx_cons_eq_gt_nil hyb hbb hby]
          | b'' :: bs'' =>
            rw [bIdx_cons_eq_gt _ h1 hbb h2, bIdx_cons_eq_gt _ hyb hbb hby,
              bIdx_equiv_congr h hxy bs'' b'']
        · rw [Bool.not_eq_true] at hby
          have h2 : less b' x = false := by rw [hbx']; exact hby
          rw [bIdx_cons_eq_le _ h1 hbb h2, bIdx_cons_eq_le _ hyb hbb hby]

/-- Under a non-below hypothesis for the smaller element, the larger element
is not below the pivot either. -/
theorem nlt_pivot_of_gt (h : SWO less) (hyx : less y x = true) {b : α}
    (hyb : less y b = false) : less x b = false := by
  by_contra hc
  rw [Bool.not_eq_false] at hc
  have := h.trans y x b hyx hc
  rw [hyb] at this
  exact Bool.false_ne_true this

/-- Monotonicity of the bucket index: a smaller element never lands in a
later bucket. -/
theorem bIdx_mono (h : SWO less) (hyx : less y x = true) :
    ∀ (bs : List α) (b : α),
      bucketIdxGo less y b bs ≤ bucketIdxGo less x b bs
  | [], b => by
    by_cases hyb : less y b = true
    · rw [bIdx_of_lt [] hyb]
      omega
    · rw [Bool.not_eq_true] at hyb
      rw [bIdx_nil hyb, bIdx_nil (nlt_pivot_of_gt h hyx hyb)]
  | b' :: bs', b => by
    by_cases hyb : less y b = true
    · rw [bIdx_of_lt _ hyb]
      omega
    · rw [Bool.not_eq_true] at hyb
      have hxb : less x b = false := nlt_pivot_of_gt h hyx hyb
      by_cases hbb : less b b' = true
      · rw [bIdx_cons_distinct bs' hyb hbb, bIdx_cons_distinct bs' hxb hbb]
        have := bIdx_mono h hyx bs' b'
        omega
      · rw [Bool.not_eq_true] at hbb
        by_cases hby : less b' y = true
        · have hbx : less b' x = true := h.trans b' y x hby hyx
          match bs' with
          | [] =>
            rw [bIdx_cons_eq_gt_nil hyb hbb hby,
              bIdx_cons_eq_gt_nil hxb hbb hbx]
          | b'' :: bs'' =>
            rw [bIdx_cons_eq_gt bs'' hyb hbb hby,
              bIdx_cons_eq_gt bs'' hxb hbb hbx]
            have := bIdx_mono h hyx bs'' b''
            omega
        · rw [Bool.not_eq_true] at hby
          rw [bIdx_cons_eq_le bs' hyb hbb hby]
          exact bIdx_pos _ hxb

/-- Lower pivot bound: an element assigned to bucket `j + 1` is not below
the pivot with index `j`. -/
theorem bIdx_lower (h : SWO less) :
    ∀ (bs : List α) (b : α) (j : ℕ), bucketIdxGo less x b bs = j + 1 →
      less x ((b :: bs).getD j x) = false
  | [], b, j => by
    intro hj
    by_cases hxb : less x b = true
    · rw [bIdx_of_lt _ hxb] at hj
      omega
    · rw [Bool.not_eq_true] at hxb
      rw [bIdx_nil hxb] at hj
      have : j = 0 := by omega
      subst this
      simpa using hxb
  | b' :: bs', b, j => by
    intro hj
    by_cases hxb : less x b = true
    · rw [bIdx_of_lt _ hxb] at hj
      omega
    · rw [Bool.not_eq_true] at hxb
      by_cases hbb : less b b' = true
      · rw [bIdx_cons_distinct _ hxb hbb] at hj
        match j, hj with
        | 0, hj => simpa using hxb
        | j' + 1, hj =>
          have hj' : bucketIdxGo less x b' bs' = j' + 1 := by omega
          simpa using bIdx_lower h bs' b' j' hj'
      · rw [Bool.not_eq_true] at hbb
        by_cases hby : less b' x = true
        · match bs' with
          | [] =>
            rw [bIdx_cons_eq_gt_nil hxb hbb hby] at hj
            have : j = 1 := by omega
            subst this
            simpa using h.asymm hby
          | b'' :: bs'' =>
            rw [bIdx_cons_eq_gt _ hxb hbb hby] at hj
            cases hv : bucketIdxGo less x b'' bs'' with
            | zero =>
              rw [hv] at hj
              have : j = 1 := by omega
              subst this
              simpa using h.asymm hby
            | succ j₂ =>
              rw [hv] at hj
              have : j = j₂ + 2 := by omega
              subst this
              have := bIdx_lower h bs'' b'' j₂ hv
              simpa using this
        · rw [Bool.not_eq_true] at hby
          rw [bIdx_cons_eq_le _ hxb hbb hby] at hj
          have : j = 0 := by omega
          subst this
          simpa using hxb

/-- Upper pivot bound: the pivot with index `j` is not below an element
assigned to bucket `j` (whenever that pivot exists). -/
theorem bIdx_upper (h : SWO less) :
    ∀ (bs : List α) (b : α) (j : ℕ), bucketIdxGo less x b bs = j →
      j ≤ bs.length → less ((b :: bs).getD j x) x = false
  | [], b, j => by
    intro hj hle
    by_cases hxb : less x b = true
    · rw [bIdx_of_lt _ hxb] at hj
      subst hj
      simpa using h.asymm hxb
    · rw [Bool.not_eq_true] at hxb
      rw [bIdx_nil hxb] at hj
      simp at hle
      omega
  | b' :: bs', b, j => by
    intro hj hle
    by_cases hxb : less x b = true
    · rw [bIdx_of_lt _ hxb] at hj
      subst hj
      simpa using h.asymm hxb
    · rw [Bool.not_eq_true] at hxb
      by_cases hbb : less b b' = true
      · rw [bIdx_cons_distinct _ hxb hbb] at hj
        match j, hj with
        | 0, hj => omega
        | j' + 1, hj =>
          have hj' : bucketIdxGo less x b' bs' = j' := by omega
          have hle' : j' ≤ bs'.length := by
            simp only [List.length_cons] at hle
            omega
          simpa using bIdx_upper h bs' b' j' hj' hle'
      · rw [Bool.not_eq_true] at hbb
        by_cases hby : less b' x = true
        · match bs' with
          | [] =>
            rw [bIdx_cons_eq_gt_nil hxb hbb hby] at hj
            subst hj
            simp at hle
          | b'' :: bs'' =>
            rw [bIdx_cons_eq_gt _ hxb hbb hby] at hj
            match j, hj with
            | 0, hj => omega
            | 1, hj => omega
            | j₂ + 2, hj =>
              have hj₂ : bucketIdxGo less x b'' bs'' = j₂ := by omega
              have hle' : j₂ ≤ bs''.length := by
                simp only [List.length_cons] at hle
                omega
              simpa using bIdx_upper h bs'' b'' j₂ hj₂ hle'
        · rw [Bool.not_eq_true] at hby
          rw [bIdx_cons_eq_le _ hxb hbb hby] at hj
          subst hj
          simpa using hby

/-- The defaulted last element of a list is a member of the list extended
with the default. -/
theorem getLastD_mem_cons : ∀ (l : List α) (a : α), l.getLastD a ∈ a :: l
  | [], a => by simp
  | b :: l, a => by
    rw [List.getLastD_cons]
    have := getLastD_mem_cons l b
    simp only [List.mem_cons] at this ⊢
    tauto

/-- An element strictly above the last pivot is assigned to the final
(overflow) bucket. -/
theorem bIdx_of_gt_last (h : SWO less) :
    ∀ (bs : List α) (b : α), SortedND less (b :: bs) →
      less (bs.getLastD b) x = true →
      bucketIdxGo less x b bs = bs.length + 1
  | [], b => by
    intro _ hLx
    simp only [List.getLastD_nil] at hLx
    rw [bIdx_nil (h.asymm hLx)]
    simp
  | b' :: bs', b => by
    intro hs hLx
    rw [List.getLastD_cons] at hLx
    have hmem : (bs'.getLastD b') ∈ b' :: bs' := getLastD_mem_cons bs' b'
    have hLb : less (bs'.getLastD b') b = false := by
      rcases List.pairwise_cons.mp hs with ⟨h1, _⟩
      exact h1 _ hmem
    have hxb : less x b = false := by
      by_contra hc
      rw [Bool.not_eq_false] at hc
      have h1 := @SWO.lt_of_lt_of_nlt α less h x b (bs'.getLastD b') hc hLb
      have h2 := h.trans _ _ _ h1 hLx
      rw [h.irrefl] at h2
      exact Bool.false_ne_true h2
    by_cases hbb : less b b' = true
    · rw [bIdx_cons_distinct _ hxb hbb,
        bIdx_of_gt_last h bs' b' (List.pairwise_cons.mp hs).2 hLx]
      simp only [List.length_cons]
      omega
    · rw [Bool.not_eq_true] at hbb
      have hLb' : less (bs'.getLastD b') b' = false := by
        rcases List.mem_cons.mp hmem with he | hm
        · rw [he, h.irrefl]
        · rcases List.pairwise_cons.mp (List.pairwise_cons.mp hs).2 with ⟨h2, _⟩
          exact h2 _ hm
      have hbx : less b' x = true :=
        @SWO.lt_of_nlt_of_lt α less h b' (bs'.getLastD b') x hLb' hLx
      match bs' with
      | [] =>
        rw [bIdx_cons_eq_gt_nil hxb hbb hbx]
        simp
      | b'' :: bs'' =>
        rw [bIdx_cons_eq_gt _ hxb hbb hbx]
        have hs'' : SortedND less (b'' :: bs'') :=
          (List.pairwise_cons.mp (List.pairwise_cons.mp hs).2).2
        rw [List.getLastD_cons] at hLx
        rw [bIdx_of_gt_last h bs'' b'' hs'' hLx]
        simp only [List.length_cons]
        omega

end BucketIdxSWO

section GbcSpec

variable {less : α → α → Bool}

theorem beq_shift (c a j : ℕ) : ((c + a) == (j + c)) = (a == j) := by
  rcases eq_or_ne a j with rfl | hne
  · simp [Nat.add_comm]
  · have h1 : c + a ≠ j + c := by omega
    rw [beq_eq_false_iff_ne.mpr h1, beq_eq_false_iff_ne.mpr hne]

theorem map_range_succ {β : Type _} (F : ℕ → β) (m : ℕ) :
    (List.range (m + 1)).map F = F 0 :: (List.range m).map (fun j => F (j + 1)) := by
  rw [List.range_succ_eq_map, List.map_cons, List.map_map]
  rfl

/-- A sorted list is downward closed for the predicate `below a pivot`. -/
theorem sorted_imp_p0 (h : SWO less) {as : List α} (hA : SortedND less as)
    (b : α) : as.Pairwise (fun a y => less y b = true → less a b = true) :=
  List.Pairwise.imp
    (fun {a y} hay hyb => @SWO.lt_of_nlt_of_lt α less h a y b hay hyb) hA

theorem tw_filter (h : SWO less) {as : List α} (hA : SortedND less as)
    (b : α) :
    as.takeWhile (fun a => less a b) = as.filter (fun a => less a b) :=
  takeWhile_eq_filter as (sorted_imp_p0 h hA b)

theorem dw_filter (h : SWO less) {as : List α} (hA : SortedND less as)
    (b : α) :
    as.dropWhile (fun a => less a b) = as.filter (fun a => !less a b) :=
  dropWhile_eq_filter_not as (sorted_imp_p0 h hA b)

theorem mem_dw_nlt (h : SWO less) {as : List α} (hA : SortedND less as)
    {b : α} : ∀ x ∈ as.dropWhile (fun a => less a b), less x b = false := by
  intro x hx
  rw [dw_filter h hA b] at hx
  have := List.of_mem_filter hx
  simpa using this

/-- Elements of the first `takeWhile` all have bucket index 0, so they do
not contribute to any later bucket's filter. -/
theorem filter_idx_tw_nil {as : List α} (bs : List α) (b : α) {j : ℕ}
    (hj : 1 ≤ j) :
    (as.takeWhile (fun a => less a b)).filter
      (fun x => bucketIdxGo less x b bs == j) = [] := by
  apply List.filter_eq_nil_iff.mpr
  intro x hx
  have hp : less x b = true := by simpa using List.mem_takeWhile_imp hx
  rw [bIdx_of_lt bs hp]
  simp
  omega

/-- The bucket-0 filter over a sorted list is its strictly-below prefix. -/
theorem filter_idx0 (h : SWO less) {as : List α} (hA : SortedND less as)
    (bs : List α) (b : α) :
    as.filter (fun x => bucketIdxGo less x b bs == 0) =
      as.takeWhile (fun a => less a b) := by
  rw [tw_filter h hA b]
  apply List.filter_congr
  intro x _
  by_cases hc : less x b = true
  · rw [bIdx_of_lt bs hc, hc]
    simp
  · rw [Bool.not_eq_true] at hc
    rw [hc]
    exact beq_eq_false_iff_ne.mpr (by have := bIdx_pos bs hc; omega)

/-- For bucket indices at least 1, the filter over the whole list equals the
filter over its below-first-pivot-free suffix. -/
theorem filter_idx_drop (bs : List α) (b : α) {j : ℕ} (hj : 1 ≤ j)
    (as : List α) :
    as.filter (fun x => bucketIdxGo less x b bs == j) =
      (as.dropWhile (fun a => less a b)).filter
        (fun x => bucketIdxGo less x b bs == j) := by
  conv_lhs =>
    rw [← List.takeWhile_append_dropWhile (fun a => less a b) as]
  rw [List.filter_append, filter_idx_tw_nil bs b hj, List.nil_append]

/-- Base case of the count characterization: a single pivot. -/
theorem gbc_spec_nil (h : SWO less) (b : α) (as : List α)
    (hA : SortedND less as) :
    gbc_go less as b [] = (List.range 2).map
      (fun j => (as.filter (fun x => bucketIdxGo less x b [] == j)).length) := by
  have hF0 := filter_idx0 h hA [] b
  by_cases he : (as.dropWhile (fun a => less a b)).isEmpty = true
  · rw [gbc_go_empty [] he]
    have hdw : as.dropWhile (fun a => less a b) = [] := by
      simpa using he
    have hF1 : as.filter (fun x => bucketIdxGo less x b [] == 1) = [] := by
      rw [filter_idx_drop [] b (by omega) as, hdw, List.filter_nil]
    show _ = [_, _].map _
    simp only [List.map_cons, List.map_nil, hF0, hF1]
    simp
  · rw [Bool.not_eq_true] at he
    rw [gbc_go_nil he]
    have hF1 : as.filter (fun x => bucketIdxGo less x b [] == 1) =
        as.dropWhile (fun a => less a b) := by
      rw [filter_idx_drop [] b (by omega) as]
      apply List.filter_eq_self.mpr
      intro x hx
      rw [bIdx_nil (mem_dw_nlt h hA x hx)]
      simp
    show _ = [_, _].map _
    simp only [List.map_cons, List.map_nil, hF0, hF1]

theorem map_range_eq_replicate_zero {m : ℕ} {G : ℕ → ℕ} (hz : ∀ j, G j = 0) :
    (List.range m).map G = List.replicate m 0 := by
  rw [show G = fun _ => 0 from funext hz]
  exact map_range_zero m

theorem map_range_succ_succ {β : Type _} (F : ℕ → β) (m : ℕ) :
    (List.range (m + 2)).map F =
      F 0 :: F 1 :: (List.range m).map (fun j => F (j + 2)) := by
  rw [List.range_succ_eq_map, List.range_succ_eq_map]
  simp only [List.map_cons, List.map_map]
  rfl

/-- Splitting the head off the count-characterizing map. -/
theorem counts_range_split1 (b : α) (bs : List α) (as : List α) (m : ℕ)
    (hm : bs.length + 2 = m + 1) :
    (List.range (bs.length + 2)).map
      (fun j => (as.filter (fun x => bucketIdxGo less x b bs == j)).length) =
    (as.filter (fun x => bucketIdxGo less x b bs == 0)).length ::
      (List.range m).map (fun j =>
        (as.filter (fun x => bucketIdxGo less x b bs == (j + 1))).length) := by
  rw [hm, map_range_succ]

/-- Splitting the two leading entries off the count-characterizing map. -/
theorem counts_range_split2 (b : α) (bs : List α) (as : List α) (m : ℕ)
    (hm : bs.length + 2 = m + 2) :
    (List.range (bs.length + 2)).map
      (fun j => (as.filter (fun x => bucketIdxGo less x b bs == j)).length) =
    (as.filter (fun x => bucketIdxGo less x b bs == 0)).length ::
    (as.filter (fun x => bucketIdxGo less x b bs == 1)).length ::
      (List.range m).map (fun j =>
        (as.filter (fun x => bucketIdxGo less x b bs == (j + 2))).length) := by
  rw [hm, map_range_succ_succ]

/-- Characterization of the counting walk over a sorted block and sorted
pivots: the `j`-th counter is exactly the number of block elements whose
bucket index is `j`. -/
theorem gbc_spec_go (h : SWO less) :
    ∀ (n : ℕ) (bs : List α), bs.length ≤ n → ∀ (b : α) (as : List α),
      SortedND less as → SortedND less (b :: bs) →
      gbc_go less as b bs = (List.range (bs.length + 2)).map
        (fun j =>
          (as.filter (fun x => bucketIdxGo less x b bs == j)).length) := by
  intro n
  induction n with
  | zero =>
    intro bs hbs b as hA _
    have hnil : bs = [] := by
      cases bs
      · rfl
      · simp at hbs
    subst hnil
    exact gbc_spec_nil h b as hA
  | succ n ih =>
    intro bs hbs b as hA hP
    cases bs with
    | nil => exact gbc_spec_nil h b as hA
    | cons b' bs' =>
      have hA1 : SortedND less (as.dropWhile (fun a => less a b)) :=
        hA.sublist (List.dropWhile_sublist _)
      have hF0 := filter_idx0 h hA (b' :: bs') b
      have hmemA1 : ∀ x ∈ as.dropWhile (fun a => less a b),
          less x b = false := mem_dw_nlt h hA
      by_cases he : (as.dropWhile (fun a => less a b)).isEmpty = true
      · -- every block element is below the first pivot: early return
        rw [counts_range_split1 b (b' :: bs') as ((b' :: bs').length + 1) rfl,
          gbc_go_empty _ he]
        have hdw : as.dropWhile (fun a => less a b) = [] := by simpa using he
        congr 1
        · rw [hF0]
        · symm
          apply map_range_eq_replicate_zero
          intro j
          rw [filter_idx_drop (b' :: bs') b (by omega) as, hdw, List.filter_nil]
          rfl
      · rw [Bool.not_eq_true] at he
        by_cases hd : less b b' = true
        · -- distinct adjacent pivots: plain recursive step
          rw [counts_range_split1 b (b' :: bs') as (bs'.length + 2) (by simp),
            gbc_go_distinct bs' he hd]
          have hP' : SortedND less (b' :: bs') := hP.tail_of_cons
          rw [ih bs' (by simp only [List.length_cons] at hbs; omega) b' _ hA1
            hP']
          congr 1
          · rw [hF0]
          · apply List.map_congr_left
            intro j _
            rw [filter_idx_drop (b' :: bs') b (by omega) as]
            congr 1
            apply List.filter_congr
            intro x hx
            rw [bIdx_cons_distinct bs' (hmemA1 x hx) hd]
            exact (beq_shift 1 _ j).symm
        · -- two equal adjacent pivots: the second inner loop runs
          rw [Bool.not_eq_true] at hd
          have hdc1 : (as.dropWhile (fun a => less a b)).Pairwise
              (fun a y => (!less b' y) = true → (!less b' a) = true) := by
            apply List.Pairwise.imp _ hA1
            intro a y hay hyp
            simp only [Bool.not_eq_true'] at hyp ⊢
            by_contra hc
            rw [Bool.not_eq_false] at hc
            have := @SWO.lt_of_lt_of_nlt α less h b' a y hc hay
            rw [hyp] at this
            exact Bool.false_ne_true this
          have htw1 := takeWhile_eq_filter
            (as.dropWhile (fun a => less a b)) hdc1
          have hdw1 := dropWhile_eq_filter_not
            (as.dropWhile (fun a => less a b)) hdc1
          have hA2 : SortedND less ((as.dropWhile (fun a => less a b)).dropWhile
              (fun a => !less b' a)) := hA1.sublist (List.dropWhile_sublist _)
          have hmem2 : ∀ x ∈ (as.dropWhile (fun a => less a b)).dropWhile
              (fun a => !less b' a), less b' x = true := by
            intro x hx
            rw [hdw1] at hx
            have := List.of_mem_filter hx
            simpa using this
          have hmem2A1 : ∀ x ∈ (as.dropWhile (fun a => less a b)).dropWhile
              (fun a => !less b' a), x ∈ as.dropWhile (fun a => less a b) :=
            fun x hx => (List.dropWhile_sublist _).subset hx
          have hmemTW1 : ∀ x ∈ (as.dropWhile (fun a => less a b)).takeWhile
              (fun a => !less b' a), less b' x = false := by
            intro x hx
            have := List.mem_takeWhile_imp hx
            simpa using this
          have hF1 : as.filter
              (fun x => bucketIdxGo less x b (b' :: bs') == 1) =
              (as.dropWhile (fun a => less a b)).takeWhile
                (fun a => !less b' a) := by
            rw [filter_idx_drop (b' :: bs') b (by omega) as, htw1]
            apply List.filter_congr
            intro x hx
            by_cases hbx : less b' x = true
            · have h2 := bIdx_ge_two bs' (hmemA1 x hx) hd hbx
              rw [beq_eq_false_iff_ne.mpr (by omega)]
              simp [hbx]
            · rw [Bool.not_eq_true] at hbx
              rw [bIdx_cons_eq_le bs' (hmemA1 x hx) hd hbx]
              simp [hbx]
          have hfj2 : ∀ j : ℕ, 2 ≤ j →
              (as.dropWhile (fun a => less a b)).filter
                (fun x => bucketIdxGo less x b (b' :: bs') == j) =
              ((as.dropWhile (fun a => less a b)).dropWhile
                (fun a => !less b' a)).filter
                (fun x => bucketIdxGo less x b (b' :: bs') == j) := by
            intro j hj
            conv_lhs =>
              rw [← List.takeWhile_append_dropWhile (fun a => !less b' a)
                (as.dropWhile (fun a => less a b))]
            rw [List.filter_append]
            have hnil : ((as.dropWhile (fun a => less a b)).takeWhile
                (fun a => !less b' a)).filter
                (fun x => bucketIdxGo less x b (b' :: bs') == j) = [] := by
              apply List.filter_eq_nil_iff.mpr
              intro x hx
              have h1 : less x b = false :=
                hmemA1 x ((List.takeWhile_sublist _).subset hx)
              have h2 : less b' x = false := hmemTW1 x hx
              rw [bIdx_cons_eq_le bs' h1 hd h2]
              simp
              omega
            rw [hnil, List.nil_append]
          by_cases he2 : ((as.dropWhile (fun a => less a b)).dropWhile
              (fun a => !less b' a)).isEmpty = true
          · -- the block is exhausted inside the second inner loop
            rw [counts_range_split2 b (b' :: bs') as (bs'.length + 1)
              (by simp), gbc_go_eq_empty2 bs' he hd he2]
            have hdw2 : (as.dropWhile (fun a => less a b)).dropWhile
                (fun a => !less b' a) = [] := by simpa using he2
            congr 1
            · rw [hF0]
            congr 1
            · rw [hF1]
            symm
            apply map_range_eq_replicate_zero
            intro j
            rw [filter_idx_drop (b' :: bs') b (by omega) as,
              hfj2 (j + 2) (by omega), hdw2, List.filter_nil]
            rfl
          · rw [Bool.not_eq_true] at he2
            cases bs' with
            | nil =>
              -- the pivots are exhausted right after the second inner loop
              rw [counts_range_split2 b [b'] as 1 (by simp),
                gbc_go_eq_nil2 he hd he2]
              congr 1
              · rw [hF0]
              congr 1
              · rw [hF1]
              have hF2 : as.filter
                  (fun x => bucketIdxGo less x b [b'] == 2) =
                  (as.dropWhile (fun a => less a b)).dropWhile
                    (fun a => !less b' a) := by
                rw [filter_idx_drop [b'] b (by omega) as, hfj2 2 (by omega)]
                apply List.filter_eq_self.mpr
                intro x hx
                rw [bIdx_cons_eq_gt_nil (hmemA1 x (hmem2A1 x hx)) hd
                  (hmem2 x hx)]
                simp
              rw [show List.range 1 = [0] from rfl, List.map_cons,
                List.map_nil, show (0 : ℕ) + 2 = 2 from rfl, hF2]
            | cons b'' bs'' =>
              -- the walk continues after the equal-pivot bucket
              rw [counts_range_split2 b (b' :: b'' :: bs'') as
                (bs''.length + 2) (by simp), gbc_go_eq_rec bs'' he hd he2]
              have hP'' : SortedND less (b'' :: bs'') :=
                hP.tail_of_cons.tail_of_cons
              rw [ih bs'' (by simp only [List.length_cons] at hbs; omega) b'' _
                hA2 hP'']
              congr 1
              · rw [hF0]
              congr 1
              · rw [hF1]
              apply List.map_congr_left
              intro j _
              rw [filter_idx_drop (b' :: b'' :: bs'') b (by omega) as,
                hfj2 (j + 2) (by omega)]
              congr 1
              apply List.filter_congr
              intro x hx
              rw [bIdx_cons_eq_gt bs'' (hmemA1 x (hmem2A1 x hx)) hd
                (hmem2 x hx)]
              exact (beq_shift 2 _ j).symm

/-- The counters emitted by the walk always total the block length: every
element is counted exactly once (no sortedness needed). -/
theorem gbc_go_sum (f : α → α → Bool) :
    ∀ (bs : List α) (b : α) (as : List α),
      (gbc_go f as b bs).sum = as.length
  | [], b, as => by
    have hlen : (as.takeWhile (fun a => f a b)).length +
        (as.dropWhile (fun a => f a b)).length = as.length := by
      have := congrArg List.length
        (List.takeWhile_append_dropWhile (fun a => f a b) as)
      rw [List.length_append] at this
      exact this
    by_cases he : (as.dropWhile (fun a => f a b)).isEmpty = true
    · rw [gbc_go_empty [] he]
      have : (as.dropWhile (fun a => f a b)).length = 0 := by
        simp [List.isEmpty_iff.mp he]
      simp only [List.sum_cons, List.sum_replicate, smul_eq_mul, Nat.mul_zero]
      omega
    · rw [Bool.not_eq_true] at he
      rw [gbc_go_nil he]
      simp only [List.sum_cons, List.sum_nil]
      omega
  | b' :: bs', b, as => by
    have hlen : (as.takeWhile (fun a => f a b)).length +
        (as.dropWhile (fun a => f a b)).length = as.length := by
      have := congrArg List.length
        (List.takeWhile_append_dropWhile (fun a => f a b) as)
      rw [List.length_append] at this
      exact this
    by_cases he : (as.dropWhile (fun a => f a b)).isEmpty = true
    · rw [gbc_go_empty _ he]
      have : (as.dropWhile (fun a => f a b)).length = 0 := by
        simp [List.isEmpty_iff.mp he]
      simp only [List.sum_cons, List.sum_replicate, smul_eq_mul, Nat.mul_zero]
      omega
    · rw [Bool.not_eq_true] at he
      by_cases hd : f b b' = true
      · rw [gbc_go_distinct bs' he hd]
        rw [List.sum_cons, gbc_go_sum f bs' b' (as.dropWhile (fun a => f a b))]
        omega
      · rw [Bool.not_eq_true] at hd
        have hlen1 : ((as.dropWhile (fun a => f a b)).takeWhile
              (fun a => !f b' a)).length +
            ((as.dropWhile (fun a => f a b)).dropWhile
              (fun a => !f b' a)).length =
            (as.dropWhile (fun a => f a b)).length := by
          have := congrArg List.length
            (List.takeWhile_append_dropWhile (fun a => !f b' a)
              (as.dropWhile (fun a => f a b)))
          rw [List.length_append] at this
          exact this
        by_cases he2 : ((as.dropWhile (fun a => f a b)).dropWhile
            (fun a => !f b' a)).isEmpty = true
        · rw [gbc_go_eq_empty2 bs' he hd he2]
          have : ((as.dropWhile (fun a => f a b)).dropWhile
              (fun a => !f b' a)).length = 0 := by
            simp [List.isEmpty_iff.mp he2]
          simp only [List.sum_cons, List.sum_replicate, smul_eq_mul,
            Nat.mul_zero]
          omega
        · rw [Bool.not_eq_true] at he2
          match bs' with
          | [] =>
            rw [gbc_go_eq_nil2 he hd he2]
            simp only [List.sum_cons, List.sum_nil]
            omega
          | b'' :: bs'' =>
            rw [gbc_go_eq_rec bs'' he hd he2]
            rw [List.sum_cons, List.sum_cons, gbc_go_sum f bs'' b''
              ((as.dropWhile (fun a => f a b)).dropWhile (fun a => !f b' a))]
            omega

/-- Characterization of `get_bucket_counts` on non-empty inputs. -/
theorem get_bucket_counts_spec (h : SWO less) (A P : List α) (C0 : List ℕ)
    (hA : SortedND less A) (hP : SortedND less P) (hAne : A ≠ [])
    (hPne : P ≠ []) :
    get_bucket_counts less A P C0 = (List.range (P.length + 1)).map
      (fun j => (A.filter (fun x => bucketIdx less P x == j)).length) := by
  match P, hPne with
  | b :: bs, _ =>
    rw [get_bucket_counts]
    rw [if_neg (by simp [hAne])]
    have := gbc_spec_go h bs.length bs (le_refl _) b A hA hP
    rw [this]
    rfl

end GbcSpec

/-! ## Concrete comparator facts -/

theorem natLess_swo : SWO natLess := by
  constructor
  · intro a
    simp [natLess]
  · intro a b c h1 h2
    simp only [natLess, decide_eq_true_eq] at h1 h2 ⊢
    omega
  · intro a b c h1 h2
    simp only [natLess, decide_eq_false_iff_not] at h1 h2 ⊢
    omega

theorem pairLess_swo {less : α → α → Bool} (h : SWO less) :
    SWO (pairLess less) := by
  constructor
  · intro u
    exact h.irrefl u.2
  · intro u v w h1 h2
    exact h.trans _ _ _ h1 h2
  · intro u v w h1 h2
    exact h.nlt_trans _ _ _ h1 h2

/-! ## Claim C6: count-index width selection -/

/-- Claim C6 counterexample: the claim says the 32-bit width is selected
exactly when `n < 2^32`, but at `n = 2^32 - 1 = 4294967295` both drivers
compare `n < std::numeric_limits<unsigned int>::max()` (which is
`4294967295` itself), so the comparison fails and the 64-bit width is
selected even though `n < 2^32`. -/
theorem C6_counterexample :
    count_width_sample_sort 4294967295 = 64 ∧
    count_width_sample_sort_inplace 4294967295 = 64 ∧
    4294967295 < 2 ^ 32 ∧
    spec_count_width 4294967295 = 32 := by
  refine ⟨?_, ?_, by norm_num, ?_⟩
  · simp [count_width_sample_sort]
  · simp [count_width_sample_sort_inplace]
  · simp only [spec_count_width]
    norm_num

/-- Claim C6 (amended): both drivers select the 32-bit count-index width
exactly when `n < 2^32 - 1`, and the 64-bit width otherwise. -/
theorem C6_width_selection (n : ℕ) :
    (count_width_sample_sort n = 32 ↔ n < 2 ^ 32 - 1) ∧
    (count_width_sample_sort_inplace n = 32 ↔ n < 2 ^ 32 - 1) ∧
    (count_width_sample_sort n = 64 ↔ ¬n < 2 ^ 32 - 1) ∧
    (count_width_sample_sort_inplace n = 64 ↔ ¬n < 2 ^ 32 - 1) := by
  have he : (2 : ℕ) ^ 32 - 1 = 4294967295 := by norm_num
  unfold count_width_sample_sort count_width_sample_sort_inplace
  rw [he]
  by_cases hc : n < 4294967295 <;> simp [hc]

/-! ## Claim C9: destructive_move -/

/-- Claim C9: for an initialized source and uninitialized destination,
`destructive_move` leaves the destination initialized with the value
formerly in the source and the source uninitialized; when the type is
trivially destructive-movable (trivially move-constructible and trivially
destructible) the move is one bitwise copy of `sizeof(T)` bytes with no
destructor call on the source, otherwise it move-constructs the destination
and destroys the source, once each. -/
theorem C9_destructive_move {α : Type _} (T : TypeDesc) (sz : ℕ) (a : α)
    (dst : Slot α) (hdst : dst = Slot.uninit) :
    (destructive_move T sz dst (Slot.init a)).1 = Slot.init a ∧
    (destructive_move T sz dst (Slot.init a)).2.1 = Slot.uninit ∧
    (is_trivially_destructive_movable T = true →
      (destructive_move T sz dst (Slot.init a)).2.2 = [MemOp.memcpyBytes sz] ∧
      MemOp.destroy ∉ (destructive_move T sz dst (Slot.init a)).2.2) ∧
    (is_trivially_destructive_movable T = false →
      (destructive_move T sz dst (Slot.init a)).2.2 =
        [MemOp.moveConstruct, MemOp.destroy] ∧
      ((destructive_move T sz dst (Slot.init a)).2.2.count
        MemOp.moveConstruct = 1 ∧
       (destructive_move T sz dst (Slot.init a)).2.2.count MemOp.destroy = 1)) := by
  by_cases ht : is_trivially_destructive_movable T = true
  · refine ⟨?_, ?_, ?_, ?_⟩ <;> simp [destructive_move, ht]
  · rw [Bool.not_eq_true] at ht
    refine ⟨?_, ?_, ?_, ?_⟩ <;> simp [destructive_move, ht]

/-- Witness for C9 at a trivially relocatable type descriptor and a
nontrivial one. -/
theorem C9_destructive_move_witness :
    ((Slot.uninit : Slot ℕ) = Slot.uninit) ∧
    ((destructive_move ⟨true, true⟩ 8 Slot.uninit (Slot.init (5 : ℕ))).1 =
        Slot.init 5 ∧
      (destructive_move ⟨true, true⟩ 8 Slot.uninit (Slot.init (5 : ℕ))).2.1 =
        Slot.uninit ∧
      (is_trivially_destructive_movable ⟨true, true⟩ = true →
        (destructive_move ⟨true, true⟩ 8 Slot.uninit (Slot.init (5 : ℕ))).2.2 =
          [MemOp.memcpyBytes 8] ∧
        MemOp.destroy ∉
          (destructive_move ⟨true, true⟩ 8 Slot.uninit (Slot.init (5 : ℕ))).2.2) ∧
      (is_trivially_destructive_movable ⟨true, true⟩ = false →
        (destructive_move ⟨true, true⟩ 8 Slot.uninit (Slot.init (5 : ℕ))).2.2 =
          [MemOp.moveConstruct, MemOp.destroy] ∧
        ((destructive_move ⟨true, true⟩ 8 Slot.uninit (Slot.init (5 : ℕ))).2.2.count
          MemOp.moveConstruct = 1 ∧
         (destructive_move ⟨true, true⟩ 8 Slot.uninit (Slot.init (5 : ℕ))).2.2.count
          MemOp.destroy = 1))) :=
  ⟨rfl, C9_destructive_move ⟨true, true⟩ 8 (5 : ℕ) Slot.uninit rfl⟩


/-! ## Properties of `log2_up` and the derived parameters -/

theorem log2_up_go_zero (a : ℕ) : log2_up_go a 0 = a := by
  rw [log2_up_go.eq_def]
  simp

theorem log2_up_go_pos (a b : ℕ) (h : 0 < b) :
    log2_up_go a b = log2_up_go (a + 1) (b / 2) := by
  rw [log2_up_go.eq_def]
  simp [h]

theorem log2_up_go_acc : ∀ (b a : ℕ), log2_up_go a b = a + log2_up_go 0 b
  | b, a => by
    by_cases hb : 0 < b
    · rw [log2_up_go_pos a b hb, log2_up_go_pos 0 b hb,
        log2_up_go_acc (b / 2) (a + 1), log2_up_go_acc (b / 2) 1]
      omega
    · have hb0 : b = 0 := by omega
      subst hb0
      rw [log2_up_go_zero, log2_up_go_zero]
      omega
termination_by b => b
decreasing_by
  · omega
  · omega

/-- The loop counts enough shifts: `b < 2 ^ log2_up_go 0 b`. -/
theorem lt_two_pow_log2_up_go : ∀ b : ℕ, b < 2 ^ log2_up_go 0 b
  | b => by
    by_cases hb : 0 < b
    · rw [log2_up_go_pos 0 b hb, log2_up_go_acc (b / 2) 1]
      have ih := lt_two_pow_log2_up_go (b / 2)
      have h2 : 2 ^ (1 + log2_up_go 0 (b / 2)) =
          2 * 2 ^ log2_up_go 0 (b / 2) := by
        rw [pow_add]
        ring
      omega
    · have hb0 : b = 0 := by omega
      subst hb0
      rw [log2_up_go_zero]
      norm_num
termination_by b => b
decreasing_by
  omega

/-- The loop counts no more shifts than needed. -/
theorem log2_up_go_min : ∀ (b k : ℕ), b < 2 ^ k → log2_up_go 0 b ≤ k
  | b, k, h => by
    by_cases hb : 0 < b
    · rw [log2_up_go_pos 0 b hb, log2_up_go_acc (b / 2) 1]
      have hk : k ≠ 0 := by
        rintro rfl
        simp at h
        omega
      have hpow : 2 ^ k = 2 * 2 ^ (k - 1) := by
        conv_lhs => rw [show k = (k - 1) + 1 from by omega]
        rw [pow_succ]
        ring
      have hb2 : b / 2 < 2 ^ (k - 1) := by omega
      have := log2_up_go_min (b / 2) (k - 1) hb2
      omega
    · have hb0 : b = 0 := by omega
      subst hb0
      rw [log2_up_go_zero]
      omega
termination_by b _ => b
decreasing_by
  omega

/-- Upper bound: the least power of two of the loop doubles `b` at most. -/
theorem two_pow_log2_up_go_le : ∀ b : ℕ, 1 ≤ b → 2 ^ log2_up_go 0 b ≤ 2 * b
  | b, hb => by
    by_cases hb2 : 2 ≤ b
    · rw [log2_up_go_pos 0 b (by omega), log2_up_go_acc (b / 2) 1]
      have ih := two_pow_log2_up_go_le (b / 2) (by omega)
      have hpow : 2 ^ (1 + log2_up_go 0 (b / 2)) =
          2 * 2 ^ log2_up_go 0 (b / 2) := by
        rw [pow_add]
        ring
      omega
    · have hb1 : b = 1 := by omega
      subst hb1
      rw [log2_up_go_pos 0 1 (by omega)]
      rw [show (1 : ℕ) / 2 = 0 from rfl, log2_up_go_zero]
      norm_num
termination_by b => b
decreasing_by
  omega

/-- `log2_up` agrees with the ceiling logarithm: `1 << log2_up x` is the
least power of two at least `x`. -/
theorem log2_up_eq_clog (x : ℕ) : log2_up x = Nat.clog 2 x := by
  unfold log2_up
  apply Nat.le_antisymm
  · apply log2_up_go_min
    have h1 := @Nat.le_pow_clog 2 (by norm_num) x
    have h2 : 0 < 2 ^ Nat.clog 2 x := pow_pos (by norm_num) _
    omega
  · have h := lt_two_pow_log2_up_go (x - 1)
    have hx : x ≤ 2 ^ log2_up_go 0 (x - 1) := by omega
    exact (@Nat.le_pow_iff_clog_le 2 (by norm_num) x
      (log2_up_go 0 (x - 1))).mp hx


theorem arith_third_bound (v w m n1 : ℕ) (h1 : v ≤ 2 * w) (h2 : 6 * w ≤ m)
    (h3 : m ≤ n1) (h4 : 16384 ≤ n1) : v ≤ n1 - 1 := by omega

theorem arith_le_succ_of_pred_le (a b : ℕ) (h : a - 1 ≤ b) : a ≤ b + 1 := by
  omega

theorem arith_stride_lt (X Y Z S s : ℕ) (h1 : X ≤ Y) (h2 : Y + S = Z)
    (h3 : Z ≤ s) (h4 : 1 ≤ S) : X < s := by omega

theorem arith_mul_pred (s k : ℕ) (hk : 1 ≤ k) : s * (k - 1) + s = s * k := by
  match k, hk with
  | k + 1, _ => simp [Nat.mul_succ]

theorem sqrt_16384 : Nat.sqrt 16384 = 128 :=
  (Nat.eq_sqrt.mpr (by norm_num)).symm

theorem num_buckets_16384 : num_buckets 16384 ⟨false, false⟩ = 33 := by
  have h : bucket_quotient ⟨false, false⟩ = 4 := rfl
  rw [num_buckets, sqrt_of, h, sqrt_16384]

/-! ## Claim C8: parameter derivation of both drivers -/

/-- Claim C8: for inputs of at least the quicksort threshold, both drivers
derive their parameters as the spec states: the truncated square root, the
bucket and block quotients from the element-type flags, the bucket count
`sqrt/bucket_quotient + 1`, the block count as the least power of two at
least `sqrt/block_quotient + 1`, and the block size the ceiling of
`n / B`. -/
theorem C8_parameters (n : ℕ) (fl : ElemFlags) (hn : 16384 ≤ n) :
    sqrt_of n = spec_floor_sqrt n ∧
    bucket_quotient fl =
      (if fl.isPointer then 2 else if fl.sizeGt8 then 3 else 4) ∧
    block_quotient fl = (if fl.isPointer || fl.sizeGt8 then 3 else 4) ∧
    num_buckets n fl = spec_num_buckets n fl ∧
    num_blocks n fl = spec_num_blocks n fl ∧
    block_size n fl = spec_block_size n fl := by
  have hB : num_blocks n fl = spec_num_blocks n fl := by
    unfold num_blocks spec_num_blocks spec_next_pow2 spec_floor_sqrt sqrt_of
    rw [Nat.shiftLeft_eq, one_mul, log2_up_eq_clog]
  refine ⟨rfl, rfl, ?_, rfl, hB, ?_⟩
  · unfold block_quotient
    cases hp : fl.isPointer <;> cases hs : fl.sizeGt8 <;> simp
  · unfold block_size spec_block_size
    rw [← hB]
    have hBpos : 0 < num_blocks n fl := by
      unfold num_blocks
      rw [Nat.shiftLeft_eq, one_mul]
      exact pow_pos (by norm_num) _
    have he : n + num_blocks n fl - 1 = (n - 1) + num_blocks n fl := by omega
    rw [he, Nat.add_div_right _ hBpos]

/-- Witness for C8 at the threshold size and value-type flags. -/
theorem C8_parameters_witness :
    16384 ≤ 16384 ∧
    (sqrt_of 16384 = spec_floor_sqrt 16384 ∧
     bucket_quotient ⟨false, false⟩ =
       (if (⟨false, false⟩ : ElemFlags).isPointer then 2
        else if (⟨false, false⟩ : ElemFlags).sizeGt8 then 3 else 4) ∧
     block_quotient ⟨false, false⟩ =
       (if (⟨false, false⟩ : ElemFlags).isPointer ||
           (⟨false, false⟩ : ElemFlags).sizeGt8 then 3 else 4) ∧
     num_buckets 16384 ⟨false, false⟩ = spec_num_buckets 16384 ⟨false, false⟩ ∧
     num_blocks 16384 ⟨false, false⟩ = spec_num_blocks 16384 ⟨false, false⟩ ∧
     block_size 16384 ⟨false, false⟩ = spec_block_size 16384 ⟨false, false⟩) :=
  ⟨by omega, C8_parameters 16384 ⟨false, false⟩ (by omega)⟩

/-! ## Claim C10: the sampling assertions of the in-place driver -/

/-- The arithmetic behind the in-place driver's sampling assertions, also
used to place the stride-sampled pivots inside the sorted prefix. -/
theorem sampling_bounds (n : ℕ) (fl : ElemFlags) (i : ℕ)
    (hn : 16384 ≤ n) (hi : i < num_buckets n fl - 1) :
    num_buckets n fl - 1 ≤ block_size n fl ∧
    1 ≤ block_size n fl / (num_buckets n fl - 1) ∧
    block_size n fl / (num_buckets n fl - 1) * i < block_size n fl := by
  have ha : 128 ≤ Nat.sqrt n := Nat.le_sqrt.mpr (by omega)
  have hsq : Nat.sqrt n * Nat.sqrt n ≤ n := Nat.sqrt_le n
  have hbq : 2 ≤ bucket_quotient fl ∧ bucket_quotient fl ≤ 4 := by
    unfold bucket_quotient
    split_ifs <;> omega
  have hblq : 3 ≤ block_quotient fl ∧ block_quotient fl ≤ 4 := by
    unfold block_quotient
    split_ifs <;> omega
  have hk : num_buckets n fl - 1 = Nat.sqrt n / bucket_quotient fl := by
    unfold num_buckets sqrt_of
    simp
  have hk1 : 32 ≤ Nat.sqrt n / bucket_quotient fl := by
    calc 32 = 128 / 4 := by norm_num
    _ ≤ Nat.sqrt n / 4 := Nat.div_le_div_right ha
    _ ≤ Nat.sqrt n / bucket_quotient fl :=
        Nat.div_le_div_left hbq.2 (by omega)
  have hx1 : 1 ≤ Nat.sqrt n / block_quotient fl := by
    have h128 : 128 / 4 ≤ Nat.sqrt n / block_quotient fl := by
      calc 128 / 4 ≤ Nat.sqrt n / 4 := Nat.div_le_div_right ha
      _ ≤ Nat.sqrt n / block_quotient fl :=
          Nat.div_le_div_left hblq.2 (by omega)
    exact le_trans (by norm_num) h128
  have hBle : num_blocks n fl ≤ 2 * (Nat.sqrt n / block_quotient fl) := by
    unfold num_blocks log2_up sqrt_of
    rw [Nat.shiftLeft_eq, one_mul, Nat.add_sub_cancel]
    exact two_pow_log2_up_go_le _ hx1
  have hBpos : 0 < num_blocks n fl := by
    unfold num_blocks
    rw [Nat.shiftLeft_eq, one_mul]
    exact pow_pos (by norm_num) _
  have hq3 : Nat.sqrt n / block_quotient fl ≤ Nat.sqrt n / 3 :=
    Nat.div_le_div_left hblq.1 (by omega)
  have hq2 : Nat.sqrt n / bucket_quotient fl ≤ Nat.sqrt n / 2 :=
    Nat.div_le_div_left hbq.1 (by omega)
  have hmul : num_blocks n fl * (Nat.sqrt n / bucket_quotient fl) ≤
      (2 * (Nat.sqrt n / 3)) * (Nat.sqrt n / 2) :=
    Nat.mul_le_mul (le_trans hBle (Nat.mul_le_mul_left 2 hq3)) hq2
  have hprod : (2 * (Nat.sqrt n / 3)) * (Nat.sqrt n / 2) =
      2 * ((Nat.sqrt n / 3) * (Nat.sqrt n / 2)) := by ring
  have h6 : 6 * ((Nat.sqrt n / 3) * (Nat.sqrt n / 2)) ≤
      Nat.sqrt n * Nat.sqrt n := by
    calc 6 * ((Nat.sqrt n / 3) * (Nat.sqrt n / 2)) =
        (Nat.sqrt n / 3 * 3) * (Nat.sqrt n / 2 * 2) := by ring
    _ ≤ Nat.sqrt n * Nat.sqrt n :=
        Nat.mul_le_mul (Nat.div_mul_le_self _ 3) (Nat.div_mul_le_self _ 2)
  have hkey : num_blocks n fl * (Nat.sqrt n / bucket_quotient fl) ≤ n - 1 := by
    rw [hprod] at hmul
    exact arith_third_bound _ _ _ _ hmul h6 hsq hn
  have hkey2 : Nat.sqrt n / bucket_quotient fl * num_blocks n fl ≤ n - 1 := by
    rw [Nat.mul_comm]
    exact hkey
  have hs : num_buckets n fl - 1 ≤ block_size n fl := by
    rw [hk]
    unfold block_size
    have h2 : (Nat.sqrt n / bucket_quotient fl - 1) * num_blocks n fl ≤
        Nat.sqrt n / bucket_quotient fl * num_blocks n fl :=
      Nat.mul_le_mul_right _ (by omega)
    have hdiv : Nat.sqrt n / bucket_quotient fl - 1 ≤
        (n - 1) / num_blocks n fl :=
      (Nat.le_div_iff_mul_le hBpos).mpr (le_trans h2 hkey2)
    exact arith_le_succ_of_pred_le _ _ hdiv
  have hk32 : 32 ≤ num_buckets n fl - 1 := by
    rw [hk]
    exact hk1
  have hstride1 : 1 ≤ block_size n fl / (num_buckets n fl - 1) :=
    (Nat.one_le_div_iff (by omega)).mpr hs
  refine ⟨hs, hstride1, ?_⟩
  have hmono : block_size n fl / (num_buckets n fl - 1) * i ≤
      block_size n fl / (num_buckets n fl - 1) *
        (num_buckets n fl - 1 - 1) :=
    Nat.mul_le_mul_left _ (by omega)
  have hfull : block_size n fl / (num_buckets n fl - 1) *
      (num_buckets n fl - 1) ≤ block_size n fl :=
    Nat.div_mul_le_self _ _
  have hsplit : block_size n fl / (num_buckets n fl - 1) *
        (num_buckets n fl - 1 - 1) +
      block_size n fl / (num_buckets n fl - 1) =
      block_size n fl / (num_buckets n fl - 1) * (num_buckets n fl - 1) :=
    arith_mul_pred _ _ (by omega)
  exact arith_stride_lt _ _ _ _ _ hmono hsplit hfull hstride1

/-- Claim C10: above the quicksort threshold the in-place driver's derived
sample size (one block) is at least `num_buckets - 1`, the pivot stride is
at least one, and every pivot reference `stride * i` for
`i < num_buckets - 1` stays inside the sorted sample prefix, so the
assertions at lines 120, 122 and 140 of sample_sort.h hold. -/
theorem C10_inplace_sampling_safe (n : ℕ) (fl : ElemFlags) (i : ℕ)
    (hn : 16384 ≤ n) (hi : i < num_buckets n fl - 1) :
    num_buckets n fl - 1 ≤ block_size n fl ∧
    1 ≤ block_size n fl / (num_buckets n fl - 1) ∧
    block_size n fl / (num_buckets n fl - 1) * i < block_size n fl :=
  sampling_bounds n fl i hn hi

/-- Witness for C10 at the threshold size. -/
theorem C10_inplace_sampling_safe_witness :
    (16384 ≤ 16384 ∧ 5 < num_buckets 16384 ⟨false, false⟩ - 1) ∧
    (num_buckets 16384 ⟨false, false⟩ - 1 ≤ block_size 16384 ⟨false, false⟩ ∧
     1 ≤ block_size 16384 ⟨false, false⟩ /
        (num_buckets 16384 ⟨false, false⟩ - 1) ∧
     block_size 16384 ⟨false, false⟩ /
        (num_buckets 16384 ⟨false, false⟩ - 1) * 5 <
       block_size 16384 ⟨false, false⟩) :=
  ⟨⟨by omega, by rw [num_buckets_16384]; omega⟩,
   C10_inplace_sampling_safe 16384 ⟨false, false⟩ 5 (by omega)
     (by rw [num_buckets_16384]; omega)⟩

/-! ## Claim C4: the contract of `get_bucket_counts` -/

theorem getD_map_range (F : ℕ → ℕ) (k j : ℕ) (hj : j < k) :
    ((List.range k).map F).getD j 0 = F j := by
  have hlen : j < ((List.range k).map F).length := by
    simp [hj]
  rw [List.getD_eq_getElem _ _ hlen, List.getElem_map, List.getElem_range]

/-- Claim C4: for a non-empty sorted block `A`, non-empty sorted pivots `P`
and a strict weak ordering, `get_bucket_counts` writes every entry of the
count vector (the result has one entry per bucket and is independent of the
previous contents of `C`), the entries sum to `|A|`, entry `j` counts
exactly the elements whose bucket (delimited by pivots `j-1` and `j`)
contains them, and every element past the last pivot is counted in the last
bucket `C[|P|]`. -/
theorem C4_get_bucket_counts {α : Type _} {less : α → α → Bool} (h : SWO less)
    (A P : List α) (C0 C0' : List ℕ) (hA : SortedND less A)
    (hP : SortedND less P) (hAne : A ≠ []) (hPne : P ≠ []) :
    (get_bucket_counts less A P C0).length = P.length + 1 ∧
    get_bucket_counts less A P C0 = get_bucket_counts less A P C0' ∧
    (get_bucket_counts less A P C0).sum = A.length ∧
    (∀ j, j ≤ P.length → (get_bucket_counts less A P C0).getD j 0 =
      (A.filter (fun x => bucketIdx less P x == j)).length) ∧
    (∀ x ∈ A, ∀ j, bucketIdx less P x = j →
      j ≤ P.length ∧
      (j = 0 ∨ less x (P.getD (j - 1) x) = false) ∧
      (j = P.length ∨ less (P.getD j x) x = false)) ∧
    (∀ x ∈ A, less (P.getLastD x) x = true →
      bucketIdx less P x = P.length) := by
  match P, hPne with
  | b :: bs, _ =>
    have hchar := get_bucket_counts_spec h A (b :: bs) C0 hA hP hAne
      (by simp)
    have hchar' := get_bucket_counts_spec h A (b :: bs) C0' hA hP hAne
      (by simp)
    have hgbc : get_bucket_counts less A (b :: bs) C0 = gbc_go less A b bs := by
      rw [get_bucket_counts]
      rw [if_neg (by simp [hAne])]
    refine ⟨?_, ?_, ?_, ?_, ?_, ?_⟩
    · rw [hchar]
      simp
    · rw [hchar, hchar']
    · rw [hgbc]
      exact gbc_go_sum less bs b A
    · intro j hj
      rw [hchar]
      exact getD_map_range _ _ j (by simp only [List.length_cons] at hj ⊢; omega)
    · intro x _ j hj
      refine ⟨?_, ?_, ?_⟩
      · rw [← hj]
        have := @bIdx_le α less x bs b
        simpa using this
      · match j with
        | 0 => exact Or.inl rfl
        | j' + 1 =>
          right
          have := bIdx_lower h bs b j' hj
          simpa using this
      · by_cases hje : j = (b :: bs).length
        · exact Or.inl hje
        · right
          have hjle : j ≤ bs.length := by
            have h1 : j ≤ bs.length + 1 := by
              rw [← hj]
              exact @bIdx_le α less x bs b
            simp only [List.length_cons] at hje
            omega
          exact bIdx_upper h bs b j hj hjle
    · intro x _ hgt
      rw [List.getLastD_cons] at hgt
      have := bIdx_of_gt_last h bs b hP hgt
      simp only [bucketIdx, List.length_cons]
      exact this

/-- Witness for C4: block `[0,1,2,4]`, pivots `[1,3]`, two different
previous contents of the count vector. -/
theorem C4_get_bucket_counts_witness :
    (SWO natLess ∧ SortedND natLess [0, 1, 2, 4] ∧
      SortedND natLess [1, 3] ∧ ([0, 1, 2, 4] : List ℕ) ≠ [] ∧
      ([1, 3] : List ℕ) ≠ []) ∧
    ((get_bucket_counts natLess [0, 1, 2, 4] [1, 3] [7, 7, 7]).length =
        ([1, 3] : List ℕ).length + 1 ∧
     get_bucket_counts natLess [0, 1, 2, 4] [1, 3] [7, 7, 7] =
        get_bucket_counts natLess [0, 1, 2, 4] [1, 3] [0, 0, 0] ∧
     (get_bucket_counts natLess [0, 1, 2, 4] [1, 3] [7, 7, 7]).sum =
        ([0, 1, 2, 4] : List ℕ).length ∧
     (∀ j, j ≤ ([1, 3] : List ℕ).length →
       (get_bucket_counts natLess [0, 1, 2, 4] [1, 3] [7, 7, 7]).getD j 0 =
       (([0, 1, 2, 4] : List ℕ).filter
         (fun x => bucketIdx natLess [1, 3] x == j)).length) ∧
     (∀ x ∈ ([0, 1, 2, 4] : List ℕ), ∀ j, bucketIdx natLess [1, 3] x = j →
       j ≤ ([1, 3] : List ℕ).length ∧
       (j = 0 ∨ natLess x (([1, 3] : List ℕ).getD (j - 1) x) = false) ∧
       (j = ([1, 3] : List ℕ).length ∨
         natLess (([1, 3] : List ℕ).getD j x) x = false)) ∧
     (∀ x ∈ ([0, 1, 2, 4] : List ℕ),
       natLess (([1, 3] : List ℕ).getLastD x) x = true →
       bucketIdx natLess [1, 3] x = ([1, 3] : List ℕ).length)) :=
  ⟨⟨natLess_swo, by decide, by decide, by decide, by decide⟩,
   C4_get_bucket_counts natLess_swo [0, 1, 2, 4] [1, 3] [7, 7, 7] [0, 0, 0]
     (by decide) (by decide) (by decide) (by decide)⟩

/-! ## Claim C5: equal adjacent pivots -/

/-- Claim C5 counterexample: the claim asserts that two equivalent adjacent
pivots leave an empty bucket between them.  On the sorted block `[0,1,2]`
with the sorted pivots `[1,1]` (adjacent and equivalent: `natLess 1 1 =
false`) the code produces the counts `[1,1,1]`: the bucket between the two
equal pivots holds the one element equivalent to them (count `1`, not `0`),
and no entry of the count vector is zero at all.  (The code's own comments
say the bucket between equal pivots holds all-equal contents rather than
being empty.) -/
theorem C5_counterexample :
    SortedND natLess [0, 1, 2] ∧ SortedND natLess [1, 1] ∧
    natLess 1 1 = false ∧
    get_bucket_counts natLess [0, 1, 2] [1, 1] [0, 0, 0] = [1, 1, 1] ∧
    (∀ c ∈ get_bucket_counts natLess [0, 1, 2] [1, 1] [0, 0, 0], c ≠ 0) := by
  refine ⟨by decide, by decide, by decide, by decide, by decide⟩

/-- Claim C5 (amended): whenever two adjacent pivots `P[j-1]` and `P[j]` are
equivalent under `less`, the bucket `j` between them receives exactly the
elements equivalent to that pivot value: its count is the number of
elements of `A` with bucket index `j`, every element with bucket index `j`
is equivalent to `P[j]`, and all elements equivalent to the pivot value
share a single bucket index.  (The bucket is constant-valued; it is empty
only when `A` has no element equivalent to the duplicated pivot.) -/
theorem C5_equal_pivot_bucket {α : Type _} {less : α → α → Bool} (h : SWO less)
    (A P : List α) (C0 : List ℕ) (hA : SortedND less A)
    (hP : SortedND less P) (hAne : A ≠ []) (j : ℕ) (hj1 : 1 ≤ j)
    (hjP : j < P.length)
    (heq : less (P.get ⟨j - 1, by omega⟩) (P.get ⟨j, hjP⟩) = false) :
    (get_bucket_counts less A P C0).getD j 0 =
      (A.filter (fun x => bucketIdx less P x == j)).length ∧
    (∀ x, bucketIdx less P x = j → Equiv less x (P.get ⟨j, hjP⟩)) ∧
    (∀ x y, Equiv less x (P.get ⟨j, hjP⟩) → Equiv less y (P.get ⟨j, hjP⟩) →
      bucketIdx less P x = bucketIdx less P y) := by
  match P, hjP, heq, hP with
  | b :: bs, hjP, heq, hP =>
    refine ⟨?_, ?_, ?_⟩
    · have hchar := get_bucket_counts_spec h A (b :: bs) C0 hA hP hAne
        (by simp)
      rw [hchar]
      exact getD_map_range _ _ j (by simp only [List.length_cons] at hjP ⊢; omega)
    · intro x hj
      have hlow : less x ((b :: bs).getD (j - 1) x) = false := by
        have := bIdx_lower h bs b (j - 1)
          (by simpa [show j - 1 + 1 = j from by omega] using hj)
        simpa using this
      have hlow' : less x ((b :: bs).get ⟨j - 1, by omega⟩) = false := by
        rw [← List.getD_eq_get _ x _]
        exact hlow
      have hup : less ((b :: bs).getD j x) x = false := by
        have hjle : j ≤ bs.length := by
          simp only [List.length_cons] at hjP
          omega
        exact bIdx_upper h bs b j hj hjle
      have hup' : less ((b :: bs).get ⟨j, hjP⟩) x = false := by
        rw [← List.getD_eq_get _ x _]
        exact hup
      constructor
      · -- x is not below P[j]: otherwise it would be below P[j-1]
        by_contra hc
        rw [Bool.not_eq_false] at hc
        have := @SWO.lt_of_lt_of_nlt α less h x ((b :: bs).get ⟨j, hjP⟩)
          ((b :: bs).get ⟨j - 1, by omega⟩) hc heq
        rw [hlow'] at this
        exact Bool.false_ne_true this
      · exact hup'
    · intro x y hx hy
      have hxy : Equiv less x y := by
        constructor
        · rw [h.lt_congr_left hx y]
          exact hy.2
        · rw [h.lt_congr_left hy x]
          exact hx.2
      simp only [bucketIdx]
      exact bIdx_equiv_congr h hxy bs b

/-- Witness for C5 (amended) at the counterexample's input: pivots `[1,1]`
with the bucket index `j = 1` between the two equal pivots. -/
theorem C5_equal_pivot_bucket_witness :
    (SWO natLess ∧ SortedND natLess [0, 1, 2] ∧ SortedND natLess [1, 1] ∧
      ([0, 1, 2] : List ℕ) ≠ [] ∧ (1 : ℕ) ≤ 1 ∧
      1 < ([1, 1] : List ℕ).length ∧
      natLess (([1, 1] : List ℕ).get ⟨0, by decide⟩)
        (([1, 1] : List ℕ).get ⟨1, by decide⟩) = false) ∧
    ((get_bucket_counts natLess [0, 1, 2] [1, 1] [0, 0, 0]).getD 1 0 =
      (([0, 1, 2] : List ℕ).filter
        (fun x => bucketIdx natLess [1, 1] x == 1)).length ∧
     (∀ x, bucketIdx natLess [1, 1] x = 1 →
       Equiv natLess x (([1, 1] : List ℕ).get ⟨1, by decide⟩)) ∧
     (∀ x y, Equiv natLess x (([1, 1] : List ℕ).get ⟨1, by decide⟩) →
       Equiv natLess y (([1, 1] : List ℕ).get ⟨1, by decide⟩) →
       bucketIdx natLess [1, 1] x = bucketIdx natLess [1, 1] y)) :=
  ⟨⟨natLess_swo, by decide, by decide, by decide, by decide, by decide,
     by decide⟩,
   C5_equal_pivot_bucket natLess_swo [0, 1, 2] [1, 1] [0, 0, 0] (by decide)
     (by decide) (by decide) 1 (by decide) (by decide) (by decide)⟩

/-! ## Correctness of the base sorts -/

theorem pairwise_of_mem_pairs {R : α → α → Prop} :
    ∀ {l : List α}, (∀ a ∈ l, ∀ b ∈ l, R a b) → l.Pairwise R
  | [], _ => List.Pairwise.nil
  | a :: t, hmem =>
    List.Pairwise.cons (fun b hb => hmem a (by simp) b (by simp [hb]))
      (pairwise_of_mem_pairs (fun x hx y hy =>
        hmem x (by simp [hx]) y (by simp [hy])))

theorem three_filter_perm (p q r : α → Bool)
    (hx : ∀ x, (p x = true ∧ q x = false ∧ r x = false) ∨
      (p x = false ∧ q x = true ∧ r x = false) ∨
      (p x = false ∧ q x = false ∧ r x = true)) :
    ∀ xs : List α, (xs.filter p ++ (xs.filter q ++ xs.filter r)).Perm xs
  | [] => by simp
  | a :: t => by
    have ih := three_filter_perm p q r hx t
    rcases hx a with ⟨h1, h2, h3⟩ | ⟨h1, h2, h3⟩ | ⟨h1, h2, h3⟩
    · rw [List.filter_cons, List.filter_cons, List.filter_cons,
        if_pos h1, if_neg (by simp [h2]), if_neg (by simp [h3])]
      exact ih.cons a
    · rw [List.filter_cons, List.filter_cons, List.filter_cons,
        if_neg (by simp [h1]), if_pos h2, if_neg (by simp [h3]),
        List.cons_append]
      exact (List.perm_middle).trans (ih.cons a)
    · rw [List.filter_cons, List.filter_cons, List.filter_cons,
        if_neg (by simp [h1]), if_neg (by simp [h2]), if_pos h3]
      have s1 : (t.filter q ++ a :: t.filter r).Perm
          (a :: (t.filter q ++ t.filter r)) := List.perm_middle
      have s2 := s1.append_left (t.filter p)
      have s3 : (t.filter p ++ (a :: (t.filter q ++ t.filter r))).Perm
          (a :: (t.filter p ++ (t.filter q ++ t.filter r))) :=
        List.perm_middle
      exact (s2.trans s3).trans (ih.cons a)

theorem qs_parts_perm {less : α → α → Bool} (h : SWO less) (p : α)
    (xs : List α) :
    (xs.filter (fun x => less x p) ++
      (xs.filter (fun x => !less x p && !less p x) ++
        xs.filter (fun x => less p x))).Perm xs := by
  refine three_filter_perm _ _ _ (fun x => ?_) xs
  by_cases hxp : less x p = true
  · exact Or.inl ⟨hxp, by simp [hxp], h.asymm hxp⟩
  · have hxp' : less x p = false := by simpa using hxp
    by_cases hpx : less p x = true
    · exact Or.inr (Or.inr ⟨hxp', by simp [hpx], hpx⟩)
    · have hpx' : less p x = false := by simpa using hpx
      exact Or.inr (Or.inl ⟨hxp', by simp [hxp', hpx'], hpx'⟩)

theorem quicksort_perm {less : α → α → Bool} (h : SWO less) :
    ∀ l : List α, (quicksort less l).Perm l
  | [] => by rw [quicksort]
  | p :: xs => by
    rw [quicksort]
    have h1 := quicksort_perm h (xs.filter (fun x => less x p))
    have h2 := quicksort_perm h (xs.filter (fun x => less p x))
    have s1 := (h1.append
      (List.Perm.refl
        (p :: xs.filter (fun x => !less x p && !less p x)))).append h2
    have s2 : ((xs.filter (fun x => less x p) ++
        (p :: xs.filter (fun x => !less x p && !less p x))) ++
        xs.filter (fun x => less p x)).Perm (p :: xs) := by
      rw [List.append_assoc, List.cons_append]
      exact (List.perm_middle).trans ((qs_parts_perm h p xs).cons p)
    exact s1.trans s2
termination_by l => l.length
decreasing_by
  · simp only [List.length_cons]
    exact Nat.lt_succ_of_le (List.length_filter_le _ _)
  · simp only [List.length_cons]
    exact Nat.lt_succ_of_le (List.length_filter_le _ _)

theorem quicksort_sorted {less : α → α → Bool} (h : SWO less) :
    ∀ l : List α, SortedND less (quicksort less l)
  | [] => by rw [quicksort]; exact List.Pairwise.nil
  | p :: xs => by
    rw [quicksort]
    have ihA := quicksort_sorted h (xs.filter (fun x => less x p))
    have ihC := quicksort_sorted h (xs.filter (fun x => less p x))
    have hmemA : ∀ a ∈ quicksort less (xs.filter (fun x => less x p)),
        less a p = true := fun a ha => by
      have := ((quicksort_perm h _).mem_iff).mp ha
      exact (List.mem_filter.mp this).2
    have hmemC : ∀ c ∈ quicksort less (xs.filter (fun x => less p x)),
        less p c = true := fun c hc => by
      have := ((quicksort_perm h _).mem_iff).mp hc
      exact (List.mem_filter.mp this).2
    have hmemB : ∀ b ∈ xs.filter (fun x => !less x p && !less p x),
        Equiv less b p := fun b hb => by
      have := (List.mem_filter.mp hb).2
      simp only [Bool.and_eq_true, Bool.not_eq_true'] at this
      exact ⟨this.1, this.2⟩
    have hsortB : SortedND less
        (p :: xs.filter (fun x => !less x p && !less p x)) := by
      refine List.Pairwise.cons (fun b hb => (hmemB b hb).1) ?_
      refine pairwise_of_mem_pairs (fun a ha b hb => ?_)
      rw [h.lt_congr_left (hmemB b hb) a]
      exact (hmemB a ha).2
    have hsortMid : SortedND less
        ((p :: xs.filter (fun x => !less x p && !less p x)) ++
          quicksort less (xs.filter (fun x => less p x))) := by
      rw [SortedND, List.pairwise_append]
      refine ⟨hsortB, ihC, fun u hu c hc => ?_⟩
      have hpc := hmemC c hc
      rcases List.mem_cons.mp hu with rfl | hu'
      · exact h.asymm hpc
      · have hup := hmemB u hu'
        rw [h.lt_congr_right hup c]
        exact h.asymm hpc
    rw [List.append_assoc, SortedND, List.pairwise_append]
    refine ⟨ihA, hsortMid, fun a ha u hu => ?_⟩
    have hap := hmemA a ha
    rcases List.mem_append.mp hu with hu' | hc
    · rcases List.mem_cons.mp hu' with rfl | hb
      · exact h.asymm hap
      · have hub := hmemB u hb
        rw [h.lt_congr_left hub a]
        exact h.asymm hap
    · have hpc := hmemC u hc
      cases hcontra : less u a with
      | false => rfl
      | true =>
        have hpa : less p a = true := h.trans p u a hpc hcontra
        rw [h.asymm hap] at hpa
        exact absurd hpa (by simp)
termination_by l => l.length
decreasing_by
  · simp only [List.length_cons]
    exact Nat.lt_succ_of_le (List.length_filter_le _ _)
  · simp only [List.length_cons]
    exact Nat.lt_succ_of_le (List.length_filter_le _ _)

theorem bucket_sort_perm (less : α → α → Bool) (l : List α) (st : Bool) :
    (bucket_sort less l st).Perm l :=
  List.perm_insertionSort _ l

theorem swo_isTotal {less : α → α → Bool} (h : SWO less) :
    IsTotal α (fun a b => less b a = false) := by
  refine ⟨fun a b => ?_⟩
  cases hba : less b a with
  | false => exact Or.inl rfl
  | true => exact Or.inr (h.asymm hba)

theorem swo_isTrans {less : α → α → Bool} (h : SWO less) :
    IsTrans α (fun a b => less b a = false) :=
  ⟨fun a b c hab hbc => h.nlt_trans a b c hab hbc⟩

theorem bucket_sort_sorted {less : α → α → Bool} (h : SWO less)
    (l : List α) (st : Bool) : SortedND less (bucket_sort less l st) := by
  haveI := swo_isTotal h
  haveI := swo_isTrans h
  exact List.sorted_insertionSort _ l

theorem seq_sort_inplace_sorted {less : α → α → Bool} (h : SWO less)
    (fl : ElemFlags) (st : Bool) (l : List α) :
    SortedND less (seq_sort_inplace fl less st l) := by
  rw [seq_sort_inplace]
  split
  · exact quicksort_sorted h l
  · exact bucket_sort_sorted h l st

theorem seq_sort_inplace_perm {less : α → α → Bool} (h : SWO less)
    (fl : ElemFlags) (st : Bool) (l : List α) :
    (seq_sort_inplace fl less st l).Perm l := by
  rw [seq_sort_inplace]
  split
  · exact quicksort_perm h l
  · exact bucket_sort_perm less l st

theorem seq_sort_sorted {less : α → α → Bool} (h : SWO less)
    (fl : ElemFlags) (st : Bool) (l : List α) :
    SortedND less (seq_sort_ fl less st l) :=
  seq_sort_inplace_sorted h fl st l

theorem seq_sort_perm {less : α → α → Bool} (h : SWO less)
    (fl : ElemFlags) (st : Bool) (l : List α) :
    (seq_sort_ fl less st l).Perm l :=
  seq_sort_inplace_perm h fl st l

/-! ## Blocking and the per-block count vector -/

theorem chunks_flatten (bsz : ℕ) : ∀ l : List α, (chunks bsz l).flatten = l
  | [] => by rw [chunks.eq_def]; rfl
  | x :: xs => by
    rw [chunks.eq_def]
    dsimp only
    rw [List.flatten_cons]
    rw [chunks_flatten bsz (xs.drop (bsz - 1))]
    rw [List.cons_append, List.take_append_drop]
termination_by l => l.length
decreasing_by
  simp only [List.length_cons, List.length_drop]
  omega

theorem gbc_eq (f : α → α → Bool) (blk : List α) (b : α) (bs : List α)
    (C0 : List ℕ) (hb : blk ≠ []) :
    get_bucket_counts f blk (b :: bs) C0 = gbc_go f blk b bs := by
  rw [get_bucket_counts]
  rw [if_neg (by simp [hb])]

theorem counts_length {less : α → α → Bool} (h : SWO less) (blk P : List α)
    (k : ℕ) (hblk : SortedND less blk) (hP : SortedND less P)
    (hPne : P ≠ []) (hk : P.length + 1 = k) :
    (get_bucket_counts less blk P (List.replicate k 0)).length = k := by
  by_cases hb : blk = []
  · subst hb
    rw [get_bucket_counts.eq_def, if_pos (by simp)]
    simp
  · rw [get_bucket_counts_spec h blk P _ hblk hP hb hPne]
    simp [hk]

theorem counts_sum {less : α → α → Bool} (h : SWO less) (blk P : List α)
    (k : ℕ) (hPne : P ≠ []) :
    (get_bucket_counts less blk P (List.replicate k 0)).sum = blk.length := by
  by_cases hb : blk = []
  · subst hb
    rw [get_bucket_counts.eq_def, if_pos (by simp)]
    simp
  · match P, hPne with
    | b :: bs, _ =>
      rw [gbc_eq less blk b bs _ hb]
      exact gbc_go_sum less bs b blk

theorem counts_getD {less : α → α → Bool} (h : SWO less) (blk P : List α)
    (k : ℕ) (hblk : SortedND less blk) (hP : SortedND less P)
    (hPne : P ≠ []) (hk : P.length + 1 = k) (j : ℕ) (hj : j < k) :
    (get_bucket_counts less blk P (List.replicate k 0)).getD j 0 =
      (blk.filter (fun x => bucketIdx less P x == j)).length := by
  by_cases hb : blk = []
  · subst hb
    rw [get_bucket_counts.eq_def, if_pos (by simp)]
    rw [List.getD_eq_getElem _ _ (by simp [hj])]
    simp
  · rw [get_bucket_counts_spec h blk P _ hblk hP hb hPne]
    exact getD_map_range _ _ j (by omega)

/-! ## The ordered decomposition of a sorted block by bucket index -/

theorem filter_nil_of (p : α → Bool) :
    ∀ l : List α, (∀ x ∈ l, ¬p x = true) → l.filter p = []
  | [], _ => rfl
  | a :: t, hmem => by
    rw [List.filter_cons, if_neg (hmem a (by simp))]
    exact filter_nil_of p t (fun x hx => hmem x (by simp [hx]))

theorem filter_all_of (p : α → Bool) :
    ∀ l : List α, (∀ x ∈ l, p x = true) → l.filter p = l
  | [], _ => rfl
  | a :: t, hmem => by
    rw [List.filter_cons, if_pos (hmem a (by simp))]
    rw [filter_all_of p t (fun x hx => hmem x (by simp [hx]))]

theorem bucketIdx_le_len (less : α → α → Bool) (P : List α) (x : α) :
    bucketIdx less P x ≤ P.length := by
  cases P with
  | nil => simp [bucketIdx]
  | cons b bs =>
    have := @bIdx_le α less x bs b
    simpa [bucketIdx] using this

theorem bucketIdx_nlt_mono {less : α → α → Bool} (h : SWO less) (P : List α)
    {a b : α} (hba : less b a = false) :
    bucketIdx less P a ≤ bucketIdx less P b := by
  cases hab : less a b with
  | true =>
    cases P with
    | nil => simp [bucketIdx]
    | cons c cs => exact bIdx_mono h hab cs c
  | false =>
    have heq : Equiv less a b := ⟨hab, hba⟩
    cases P with
    | nil => simp [bucketIdx]
    | cons c cs => exact le_of_eq (bIdx_equiv_congr h heq cs c)

theorem count_lt_split_b (less : α → α → Bool) (P : List α) (j : ℕ) :
    ∀ l : List α,
      (l.filter (fun x => decide (bucketIdx less P x < j + 1))).length =
        (l.filter (fun x => decide (bucketIdx less P x < j))).length +
        (l.filter (fun x => bucketIdx less P x == j)).length
  | [] => by simp
  | a :: t => by
    have ih := count_lt_split_b less P j t
    by_cases h1 : bucketIdx less P a < j
    · rw [List.filter_cons, List.filter_cons, List.filter_cons,
        if_pos (by simp; omega), if_pos (by simpa using h1),
        if_neg (by simp; omega)]
      simp only [List.length_cons]
      omega
    · by_cases h2 : bucketIdx less P a = j
      · rw [List.filter_cons, List.filter_cons, List.filter_cons,
          if_pos (by simp; omega), if_neg (by simpa using h1),
          if_pos (by simpa using h2)]
        simp only [List.length_cons]
        omega
      · rw [List.filter_cons, List.filter_cons, List.filter_cons,
          if_neg (by simp; omega), if_neg (by simpa using h1),
          if_neg (by simp [h2])]
        exact ih

theorem count_lt_range_b (less : α → α → Bool) (P : List α) :
    ∀ (j : ℕ) (l : List α),
      (l.filter (fun x => decide (bucketIdx less P x < j))).length =
        ((List.range j).map (fun i =>
          (l.filter (fun x => bucketIdx less P x == i)).length)).sum
  | 0, l => by simp
  | j + 1, l => by
    rw [count_lt_split_b less P j l]
    rw [count_lt_range_b less P j l]
    rw [List.range_succ, List.map_append, List.sum_append]
    simp

theorem sorted_decomp_b {less : α → α → Bool} (P : List α) (j : ℕ) :
    ∀ l : List α,
      l.Pairwise (fun a b => bucketIdx less P a ≤ bucketIdx less P b) →
      l.filter (fun x => decide (bucketIdx less P x < j)) ++
        (l.filter (fun x => bucketIdx less P x == j) ++
          l.filter (fun x => decide (j < bucketIdx less P x))) = l
  | [], _ => by simp
  | a :: t, hpw => by
    have hmem := (List.pairwise_cons.mp hpw).1
    have ih := sorted_decomp_b P j t (List.pairwise_cons.mp hpw).2
    rcases Nat.lt_trichotomy (bucketIdx less P a) j with h1 | h1 | h1
    · rw [List.filter_cons, List.filter_cons, List.filter_cons,
        if_pos (by simpa using h1), if_neg (by simp; omega),
        if_neg (by simp; omega)]
      rw [List.cons_append, ih]
    · have ht1 : t.filter (fun x => decide (bucketIdx less P x < j)) = [] :=
        filter_nil_of _ t (fun x hx => by
          have := hmem x hx
          simp
          omega)
      rw [List.filter_cons, List.filter_cons, List.filter_cons,
        if_neg (by simp; omega), if_pos (by simpa using h1),
        if_neg (by simp; omega)]
      rw [ht1] at ih ⊢
      rw [List.nil_append] at ih ⊢
      rw [List.cons_append, ih]
    · have ht1 : t.filter (fun x => decide (bucketIdx less P x < j)) = [] :=
        filter_nil_of _ t (fun x hx => by
          have := hmem x hx
          simp
          omega)
      have ht2 : t.filter (fun x => bucketIdx less P x == j) = [] :=
        filter_nil_of _ t (fun x hx => by
          have := hmem x hx
          simp
          omega)
      have ht3 : t.filter (fun x => decide (j < bucketIdx less P x)) = t :=
        filter_all_of _ t (fun x hx => by
          have := hmem x hx
          simp
          omega)
      rw [List.filter_cons, List.filter_cons, List.filter_cons,
        if_neg (by simp; omega), if_neg (by simp; omega),
        if_pos (by simpa using h1)]
      rw [ht1, ht2, ht3, List.nil_append, List.nil_append]

theorem take_sum_getD :
    ∀ (c : List ℕ) (j : ℕ), j ≤ c.length →
      (c.take j).sum = ((List.range j).map (fun i => c.getD i 0)).sum
  | _, 0, _ => by simp
  | [], j + 1, h => by simp at h
  | a :: c, j + 1, h => by
    rw [List.take_succ_cons, List.sum_cons, List.range_succ_eq_map,
      List.map_cons, List.sum_cons, List.map_map]
    rw [take_sum_getD c j (by simpa using h)]
    simp [Function.comp_def, List.getElem?_cons_succ]

theorem drop_take_middle (F1 F2 F3 l : List α) (hl : F1 ++ (F2 ++ F3) = l) :
    (l.drop F1.length).take F2.length = F2 := by
  rw [← hl, List.drop_left, List.take_left]

theorem subrun_eq_filter {less : α → α → Bool} (h : SWO less)
    (blk P : List α) (k j : ℕ) (hblk : SortedND less blk)
    (hP : SortedND less P) (hPne : P ≠ []) (hk : P.length + 1 = k)
    (hj : j < k) :
    subrun (get_bucket_counts less blk P (List.replicate k 0)) j blk =
      blk.filter (fun x => bucketIdx less P x == j) := by
  have hlen := counts_length h blk P k hblk hP hPne hk
  have hgetD := counts_getD h blk P k hblk hP hPne hk
  have hpw : blk.Pairwise
      (fun a b => bucketIdx less P a ≤ bucketIdx less P b) :=
    hblk.imp (fun hba => bucketIdx_nlt_mono h P hba)
  have hdec := sorted_decomp_b P j blk hpw
  have hsum1 : ((get_bucket_counts less blk P
      (List.replicate k 0)).take j).sum =
      (blk.filter (fun x => decide (bucketIdx less P x < j))).length := by
    rw [take_sum_getD _ j (by omega)]
    rw [count_lt_range_b less P j blk]
    congr 1
    refine List.map_congr_left (fun i hi => ?_)
    exact hgetD i (lt_trans (List.mem_range.mp hi) hj)
  rw [subrun, hsum1, hgetD j hj]
  exact drop_take_middle _ _ _ _ hdec

/-! ## The transpose: bucket contents and the partition permutation -/

theorem filter_flatten (p : α → Bool) :
    ∀ L : List (List α),
      L.flatten.filter p = (L.map (fun l => l.filter p)).flatten
  | [] => rfl
  | l :: L => by
    rw [List.flatten_cons, List.filter_append, List.map_cons,
      List.flatten_cons, filter_flatten p L]

theorem zip_map_self {β : Type _} (B : α → β) :
    ∀ l : List α, l.zip (l.map B) = l.map (fun a => (a, B a))
  | [] => rfl
  | a :: t => by
    rw [List.map_cons, List.zip_cons_cons, zip_map_self B t, List.map_cons]

theorem transpose_char {less : α → α → Bool} (h : SWO less) (k : ℕ)
    (P : List α) (hP : SortedND less P) (hPne : P ≠ [])
    (hk : P.length + 1 = k) (sblocks : List (List α))
    (hs : ∀ blk ∈ sblocks, SortedND less blk) :
    transpose_buckets k sblocks (sblocks.map (fun blk =>
      get_bucket_counts less blk P (List.replicate k 0))) =
    (List.range k).map (fun j =>
      sblocks.flatten.filter (fun x => bucketIdx less P x == j)) := by
  rw [transpose_buckets]
  refine List.map_congr_left (fun j hj => ?_)
  have hjk := List.mem_range.mp hj
  rw [zip_map_self, List.map_map]
  have hmap : sblocks.map ((fun p => subrun p.2 j p.1) ∘
      (fun blk => (blk,
        get_bucket_counts less blk P (List.replicate k 0)))) =
      sblocks.map (fun blk =>
        blk.filter (fun x => bucketIdx less P x == j)) := by
    refine List.map_congr_left (fun blk hblk => ?_)
    exact subrun_eq_filter h blk P k j (hs blk hblk) hP hPne hk hjk
  rw [hmap]
  exact (filter_flatten _ sblocks).symm

theorem flatten_map_perm {β : Type _} (f g : β → List α)
    (hfg : ∀ b, (f b).Perm (g b)) :
    ∀ bs : List β, ((bs.map f).flatten).Perm ((bs.map g).flatten)
  | [] => List.Perm.refl []
  | b :: t => by
    rw [List.map_cons, List.map_cons, List.flatten_cons, List.flatten_cons]
    exact (hfg b).append (flatten_map_perm f g hfg t)

theorem flatten_if_insert (x : α) (f : ℕ → List α) (j0 : ℕ) :
    ∀ js : List ℕ, j0 ∈ js → js.Nodup →
      ((js.map (fun j => if j = j0 then x :: f j else f j)).flatten).Perm
        (x :: (js.map f).flatten)
  | [], hmem, _ => absurd hmem (List.not_mem_nil j0)
  | j :: t, hmem, hnd => by
    by_cases hj : j = j0
    · subst hj
      have hnotin : j ∉ t := (List.nodup_cons.mp hnd).1
      have hmap : t.map (fun j' => if j' = j then x :: f j' else f j') =
          t.map f := by
        refine List.map_congr_left (fun i hi => ?_)
        rw [if_neg (fun he => hnotin (by rw [← he]; exact hi))]
      rw [List.map_cons, if_pos rfl, List.flatten_cons, hmap,
        List.cons_append, List.map_cons, List.flatten_cons]
    · have hmem' : j0 ∈ t := by
        rcases List.mem_cons.mp hmem with he | ht
        · exact absurd he.symm hj
        · exact ht
      have ih := flatten_if_insert x f j0 t hmem' (List.nodup_cons.mp hnd).2
      rw [List.map_cons, if_neg hj, List.flatten_cons, List.map_cons,
        List.flatten_cons]
      have s1 := ih.append_left (f j)
      have s2 : (f j ++ (x :: (t.map f).flatten)).Perm
          (x :: (f j ++ (t.map f).flatten)) := List.perm_middle
      exact s1.trans s2

theorem partition_flatten_perm {less : α → α → Bool} (P : List α) (k : ℕ) :
    ∀ l : List α, (∀ x ∈ l, bucketIdx less P x < k) →
      (((List.range k).map (fun j =>
        l.filter (fun x => bucketIdx less P x == j))).flatten).Perm l
  | [], _ => by simp
  | a :: t, hg => by
    have ih := partition_flatten_perm P k t (fun x hx => hg x (by simp [hx]))
    have hak := hg a (by simp)
    have hmap : (List.range k).map (fun j =>
        (a :: t).filter (fun x => bucketIdx less P x == j)) =
        (List.range k).map (fun j => if j = bucketIdx less P a
          then a :: t.filter (fun x => bucketIdx less P x == j)
          else t.filter (fun x => bucketIdx less P x == j)) := by
      refine List.map_congr_left (fun j hj => ?_)
      by_cases hje : j = bucketIdx less P a
      · rw [if_pos hje, List.filter_cons, if_pos (by simp [hje])]
      · rw [if_neg hje, List.filter_cons,
          if_neg (by simp; exact fun he => hje he.symm)]
    rw [hmap]
    have hins := flatten_if_insert a
      (fun j => t.filter (fun x => bucketIdx less P x == j))
      (bucketIdx less P a) (List.range k)
      (List.mem_range.mpr hak) (List.nodup_range k)
    exact hins.trans (ih.cons a)

/-! ## Cross-bucket ordering from the pivots -/

theorem bucket_cross {less : α → α → Bool} (h : SWO less) (P : List α)
    (hP : SortedND less P) {x y : α} {j1 j2 : ℕ}
    (hx : bucketIdx less P x = j1) (hy : bucketIdx less P y = j2)
    (h12 : j1 < j2) (hj2 : j2 ≤ P.length) : less y x = false := by
  match P, hP with
  | [], _ => simp at hj2; omega
  | b :: bs, hP =>
    have hlen : (b :: bs).length = bs.length + 1 := by simp
    have hup : less ((b :: bs).getD j1 x) x = false :=
      bIdx_upper h bs b j1 hx (by rw [hlen] at hj2; omega)
    have hlow := bIdx_lower h bs b (j2 - 1)
      (show bucketIdx less (b :: bs) y = j2 - 1 + 1 by rw [hy]; omega)
    have hj1lt : j1 < (b :: bs).length := by omega
    have hj2lt : j2 - 1 < (b :: bs).length := by omega
    rw [List.getD_eq_getElem _ _ hj1lt] at hup
    rw [List.getD_eq_getElem _ _ hj2lt] at hlow
    have hpp : less ((b :: bs)[j2 - 1]) ((b :: bs)[j1]) = false := by
      rcases Nat.eq_or_lt_of_le (show j1 ≤ j2 - 1 by omega) with he | hlt
      · simp only [show j2 - 1 = j1 by omega]
        exact h.irrefl _
      · have hpg := List.pairwise_iff_get.mp hP ⟨j1, hj1lt⟩
          ⟨j2 - 1, hj2lt⟩ hlt
        simpa using hpg
    have hyp1 : less y ((b :: bs)[j1]) = false := h.nlt_trans _ _ _ hpp hlow
    exact h.nlt_trans _ _ _ hup hyp1

/-! ## The assembled output: final per-bucket passes over the partition -/

theorem assembled_out {less : α → α → Bool} (h : SWO less) (k : ℕ)
    (P : List α) (hP : SortedND less P) (hplen : P.length + 1 = k)
    (A' : List α) (F : ℕ → List α → List α)
    (hFp : ∀ j bkt, (F j bkt).Perm bkt)
    (hFs : ∀ j, j < k → ∀ bkt,
      (∀ x ∈ bkt, bucketIdx less P x = j) → SortedND less (F j bkt)) :
    SortedND less (((List.range k).map (fun j =>
      F j (A'.filter (fun x => bucketIdx less P x == j)))).flatten) ∧
    (((List.range k).map (fun j =>
      F j (A'.filter (fun x => bucketIdx less P x == j)))).flatten).Perm
      A' := by
  have hFmem : ∀ (j : ℕ) (bkt : List α), ∀ x ∈ F j bkt, x ∈ bkt :=
    fun j bkt x hx => (hFp j bkt).mem_iff.mp hx
  have hbmem : ∀ (j : ℕ),
      ∀ x ∈ A'.filter (fun x => bucketIdx less P x == j),
        bucketIdx less P x = j := fun j x hx => by
    have := (List.mem_filter.mp hx).2
    simpa using this
  constructor
  · rw [SortedND, List.pairwise_flatten]
    constructor
    · intro l hl
      rcases List.mem_map.mp hl with ⟨j, hj, rfl⟩
      exact hFs j (List.mem_range.mp hj) _ (hbmem j)
    · rw [List.pairwise_map]
      have hpr : (List.range k).Pairwise (· < ·) := List.pairwise_lt_range k
      refine hpr.imp_of_mem ?_
      intro j1 j2 h1 h2 h12 a ha b hb
      have hj2k := List.mem_range.mp h2
      have hga : bucketIdx less P a = j1 := hbmem j1 a (hFmem j1 _ a ha)
      have hgb : bucketIdx less P b = j2 := hbmem j2 b (hFmem j2 _ b hb)
      exact bucket_cross h P hP hga hgb h12 (by omega)
  · have hall : ∀ x ∈ A', bucketIdx less P x < k := fun x hx => by
      have := bucketIdx_le_len less P x
      omega
    have hstep := flatten_map_perm
      (fun j => F j (A'.filter (fun x => bucketIdx less P x == j)))
      (fun j => A'.filter (fun x => bucketIdx less P x == j))
      (fun j => hFp j _) (List.range k)
    exact hstep.trans (partition_flatten_perm P k A' hall)

/-! ## Sampled pivots: sortedness and bounds -/

theorem sorted_get_nlt {less : α → α → Bool} (h : SWO less) {S : List α}
    (hS : SortedND less S) {i j : ℕ} (hi : i < S.length) (hj : j < S.length)
    (hij : i ≤ j) : less (S.get ⟨j, hj⟩) (S.get ⟨i, hi⟩) = false := by
  rcases Nat.eq_or_lt_of_le hij with he | hlt
  · subst he
    exact h.irrefl _
  · exact List.pairwise_iff_get.mp hS ⟨i, hi⟩ ⟨j, hj⟩ hlt

theorem pivots_sorted {less : α → α → Bool} (h : SWO less) (S : List α)
    (hS : SortedND less S) (m c : ℕ) (d : α)
    (hidx : ∀ i, i < m → c * i < S.length) :
    SortedND less ((List.range m).map (fun i => S.getD (c * i) d)) := by
  rw [SortedND, List.pairwise_map]
  have hpr : (List.range m).Pairwise (· < ·) := List.pairwise_lt_range m
  refine hpr.imp_of_mem ?_
  intro i1 i2 h1 h2 h12
  have hc1 : c * i1 < S.length := hidx i1 (List.mem_range.mp h1)
  have hc2 : c * i2 < S.length := hidx i2 (List.mem_range.mp h2)
  rw [List.getD_eq_getElem _ _ hc1, List.getD_eq_getElem _ _ hc2]
  have hmono : c * i1 ≤ c * i2 := Nat.mul_le_mul_left c (le_of_lt h12)
  have := sorted_get_nlt h hS hc1 hc2 hmono
  simpa using this

/-! ## Buckets between equal pivots are constant-valued, hence sorted -/

theorem bucket_elem_equiv_skip {less : α → α → Bool} (h : SWO less)
    (P : List α) (j : ℕ) (hj1 : 1 ≤ j) (hjP : j < P.length) (d : α)
    (hlt : less (P.getD (j - 1) d) (P.getD j d) = false) (x : α)
    (hx : bucketIdx less P x = j) : Equiv less x (P.getD j d) := by
  match P, hjP, hlt, hx with
  | [], hjP, _, _ => simp at hjP
  | b :: bs, hjP, hlt, hx =>
    have hj1lt : j - 1 < (b :: bs).length := by omega
    have hlow := bIdx_lower h bs b (j - 1)
      (show bucketIdx less (b :: bs) x = j - 1 + 1 by rw [hx]; omega)
    have hup : less ((b :: bs).getD j x) x = false :=
      bIdx_upper h bs b j hx
        (by simp only [List.length_cons] at hjP; omega)
    rw [List.getD_eq_getElem _ _ hj1lt] at hlow
    rw [List.getD_eq_getElem _ _ hjP] at hup
    rw [List.getD_eq_getElem _ _ hj1lt, List.getD_eq_getElem _ _ hjP] at hlt
    rw [List.getD_eq_getElem _ _ hjP]
    refine ⟨?_, hup⟩
    by_contra hc
    rw [Bool.not_eq_false] at hc
    have hcontra := @SWO.lt_of_lt_of_nlt α less h x ((b :: bs)[j])
      ((b :: bs)[j - 1]) hc hlt
    rw [hlow] at hcontra
    exact Bool.false_ne_true hcontra

theorem skip_bucket_sorted {less : α → α → Bool} (h : SWO less) (P : List α)
    (j : ℕ) (hj1 : 1 ≤ j) (hjP : j < P.length) (d : α)
    (hlt : less (P.getD (j - 1) d) (P.getD j d) = false) (bkt : List α)
    (hb : ∀ x ∈ bkt, bucketIdx less P x = j) : SortedND less bkt := by
  refine pairwise_of_mem_pairs (fun a ha b hb' => ?_)
  have hea := bucket_elem_equiv_skip h P j hj1 hjP d hlt a (hb a ha)
  have heb := bucket_elem_equiv_skip h P j hj1 hjP d hlt b (hb b hb')
  rw [h.lt_congr_left heb a, h.lt_congr_right hea (P.getD j d)]
  exact h.irrefl _

/-! ## Additional parameter bounds -/

theorem num_buckets_ge (n : ℕ) (fl : ElemFlags) (hn : 16384 ≤ n) :
    33 ≤ num_buckets n fl := by
  have ha : 128 ≤ Nat.sqrt n := Nat.le_sqrt.mpr (by omega)
  have hbq : 2 ≤ bucket_quotient fl ∧ bucket_quotient fl ≤ 4 := by
    unfold bucket_quotient
    split_ifs <;> omega
  have h1 : 32 ≤ Nat.sqrt n / bucket_quotient fl := by
    calc 32 = 128 / 4 := by norm_num
    _ ≤ Nat.sqrt n / 4 := Nat.div_le_div_right ha
    _ ≤ Nat.sqrt n / bucket_quotient fl :=
        Nat.div_le_div_left hbq.2 (by omega)
  unfold num_buckets sqrt_of
  omega

theorem block_size_le (n : ℕ) (fl : ElemFlags) (hn : 1 ≤ n) :
    block_size n fl ≤ n := by
  unfold block_size
  have := Nat.div_le_self (n - 1) (num_blocks n fl)
  omega

/-! ## The in-place prefix shuffle is a permutation -/

theorem set_self_get : ∀ (l : List α) (i : ℕ) (hi : i < l.length),
    l.set i (l.get ⟨i, hi⟩) = l
  | _ :: _, 0, _ => rfl
  | a :: t, i + 1, hi => by
    have hi' : i < t.length := by simpa using hi
    show a :: t.set i (t.get ⟨i, hi'⟩) = a :: t
    rw [set_self_get t i hi']

theorem cons_set_perm (a : α) :
    ∀ (t : List α) (m : ℕ) (hm : m < t.length),
      (t.get ⟨m, hm⟩ :: t.set m a).Perm (a :: t)
  | b :: t', 0, _ => by
    show (b :: a :: t').Perm (a :: b :: t')
    exact List.Perm.swap a b t'
  | b :: t', m + 1, hm => by
    have hm' : m < t'.length := by simpa using hm
    show (t'.get ⟨m, hm'⟩ :: b :: t'.set m a).Perm (a :: b :: t')
    have s1 : (t'.get ⟨m, hm'⟩ :: b :: t'.set m a).Perm
        (b :: t'.get ⟨m, hm'⟩ :: t'.set m a) := List.Perm.swap b _ _
    have s2 := (cons_set_perm a t' m hm').cons b
    have s3 : (b :: a :: t').Perm (a :: b :: t') := List.Perm.swap a b t'
    exact (s1.trans s2).trans s3

theorem swap0_perm :
    ∀ (l : List α) (j : ℕ) (hj : j < l.length) (h0 : 0 < l.length),
      ((l.set 0 (l.get ⟨j, hj⟩)).set j (l.get ⟨0, h0⟩)).Perm l
  | a :: t, 0, _, _ => List.Perm.refl _
  | a :: t, j + 1, hj, _ => by
    have hj' : j < t.length := by simpa using hj
    show (t.get ⟨j, hj'⟩ :: t.set j a).Perm (a :: t)
    exact cons_set_perm a t j hj'

theorem set_swap_perm :
    ∀ (l : List α) (i j : ℕ) (hi : i < l.length) (hj : j < l.length),
      ((l.set i (l.get ⟨j, hj⟩)).set j (l.get ⟨i, hi⟩)).Perm l
  | l, 0, j, h0, hj => swap0_perm l j hj h0
  | a :: t, i + 1, 0, hi, h0 => by
    rw [List.set_comm _ _ _ (show (i + 1 : ℕ) ≠ 0 by omega)]
    exact swap0_perm (a :: t) (i + 1) hi h0
  | a :: t, i + 1, j + 1, hi, hj => by
    have hi' : i < t.length := by simpa using hi
    have hj' : j < t.length := by simpa using hj
    show (a :: (t.set i (t.get ⟨j, hj'⟩)).set j (t.get ⟨i, hi'⟩)).Perm
      (a :: t)
    exact (set_swap_perm t i j hi' hj').cons a

theorem swapL_perm (l : List α) (i j : ℕ) : (swapL l i j).Perm l := by
  rw [swapL]
  split
  · next a b h1 h2 =>
    obtain ⟨hi, ha⟩ := List.get?_eq_some.mp h1
    obtain ⟨hj, hb⟩ := List.get?_eq_some.mp h2
    rw [← ha, ← hb]
    exact set_swap_perm l i j hi hj
  · exact List.Perm.refl l

theorem swapL_length (l : List α) (i j : ℕ) :
    (swapL l i j).length = l.length := by
  rw [swapL]
  split
  · simp
  · rfl

theorem foldl_swap_perm (f : ℕ → ℕ) :
    ∀ (is : List ℕ) (l : List α),
      (is.foldl (fun acc i => swapL acc i (f i)) l).Perm l
  | [], l => List.Perm.refl l
  | i :: t, l => by
    rw [List.foldl_cons]
    exact (foldl_swap_perm f t (swapL l i (f i))).trans (swapL_perm l i (f i))

theorem prefix_shuffle_perm (n s : ℕ) (l : List α) :
    (prefix_shuffle n s l).Perm l := by
  rw [prefix_shuffle]
  exact foldl_swap_perm (fun i => i + hash64 i % (n - i)) (List.range s) l

theorem prefix_shuffle_length (n s : ℕ) (l : List α) :
    (prefix_shuffle n s l).length = l.length :=
  (prefix_shuffle_perm n s l).length_eq

/-! ## Correctness of the two drivers -/

theorem sample_sort_main {less : α → α → Bool} (h : SWO less)
    (fl : ElemFlags) (stable : Bool) (In : List α) :
    SortedND less (sample_sort_ fl less stable In) ∧
    (sample_sort_ fl less stable In).Perm In := by
  rw [sample_sort_.eq_def]
  split
  · exact ⟨seq_sort_sorted h fl stable In, seq_sort_perm h fl stable In⟩
  · next hn =>
    match In, hn with
    | [], hn => exact absurd (by simp [QUICKSORT_THRESHOLD]) hn
    | d :: rest, hn =>
      dsimp only
      have hn' : 16384 ≤ (d :: rest).length := by
        simp only [QUICKSORT_THRESHOLD] at hn
        omega
      have hk33 := num_buckets_ge (d :: rest).length fl hn'
      set S := quicksort less
        ((List.range (num_buckets (d :: rest).length fl * OVER_SAMPLE)).map
          (fun i => (d :: rest).getD (hash64 i % (d :: rest).length) d))
        with hS
      have hSsorted : SortedND less S := by
        rw [hS]
        exact quicksort_sorted h _
      have hSlen : S.length =
          num_buckets (d :: rest).length fl * OVER_SAMPLE := by
        rw [hS, (quicksort_perm h _).length_eq, List.length_map,
          List.length_range]
      set P := (List.range (num_buckets (d :: rest).length fl - 1)).map
        (fun i => S.getD (OVER_SAMPLE * i) d) with hP
      have hPsorted : SortedND less P := by
        rw [hP]
        refine pivots_sorted h S hSsorted _ OVER_SAMPLE d (fun i hi => ?_)
        rw [hSlen]
        simp only [OVER_SAMPLE]
        omega
      have hPlen : P.length + 1 = num_buckets (d :: rest).length fl := by
        rw [hP, List.length_map, List.length_range]
        omega
      have hPne : P ≠ [] := by
        rw [hP]
        refine List.ne_nil_of_length_pos ?_
        rw [List.length_map, List.length_range]
        omega
      set SB := (chunks (block_size (d :: rest).length fl) (d :: rest)).map
        (seq_sort_ fl less stable) with hSB
      have hSBsorted : ∀ blk ∈ SB, SortedND less blk := by
        rw [hSB]
        intro blk hblk
        rcases List.mem_map.mp hblk with ⟨c, hc, rfl⟩
        exact seq_sort_sorted h fl stable c
      have hSBperm : SB.flatten.Perm (d :: rest) := by
        rw [hSB]
        have h1 := flatten_map_perm (seq_sort_ fl less stable) id
          (fun c => seq_sort_perm h fl stable c)
          (chunks (block_size (d :: rest).length fl) (d :: rest))
        rw [List.map_id, chunks_flatten] at h1
        exact h1
      have htr := transpose_char h (num_buckets (d :: rest).length fl) P
        hPsorted hPne hPlen SB hSBsorted
      rw [htr, zip_map_self, List.map_map]
      have hFp : ∀ (j : ℕ) (bkt : List α),
          (if j == 0 || j == num_buckets (d :: rest).length fl - 1 ||
              less (P.getD (j - 1) d) (P.getD j d)
            then seq_sort_inplace fl less stable bkt else bkt).Perm bkt := by
        intro j bkt
        split
        · exact seq_sort_inplace_perm h fl stable bkt
        · exact List.Perm.refl bkt
      have hFs : ∀ j, j < num_buckets (d :: rest).length fl →
          ∀ bkt : List α, (∀ x ∈ bkt, bucketIdx less P x = j) →
          SortedND less
            (if j == 0 || j == num_buckets (d :: rest).length fl - 1 ||
                less (P.getD (j - 1) d) (P.getD j d)
              then seq_sort_inplace fl less stable bkt else bkt) := by
        intro j hj bkt hbkt
        split
        · exact seq_sort_inplace_sorted h fl stable bkt
        · next hcond =>
          have hb := Bool.eq_false_iff.mpr hcond
          rw [Bool.or_eq_false_iff, Bool.or_eq_false_iff] at hb
          obtain ⟨⟨h1, h2⟩, hltf⟩ := hb
          have hj0 : j ≠ 0 := beq_eq_false_iff_ne.mp h1
          have hjk : j ≠ num_buckets (d :: rest).length fl - 1 :=
            beq_eq_false_iff_ne.mp h2
          refine skip_bucket_sorted h P j (by omega) (by omega) d hltf
            bkt hbkt
      have hmain := assembled_out h (num_buckets (d :: rest).length fl) P
        hPsorted hPlen SB.flatten
        (fun j bkt => if j == 0 ||
            j == num_buckets (d :: rest).length fl - 1 ||
            less (P.getD (j - 1) d) (P.getD j d)
          then seq_sort_inplace fl less stable bkt else bkt) hFp hFs
      exact ⟨hmain.1, hmain.2.trans hSBperm⟩

theorem sample_sort_inplace_main {less : α → α → Bool} (h : SWO less)
    (fl : ElemFlags) (In : List α) :
    SortedND less (sample_sort_inplace_ fl less In) ∧
    (sample_sort_inplace_ fl less In).Perm In := by
  rw [sample_sort_inplace_.eq_def]
  split
  · exact ⟨seq_sort_inplace_sorted h fl false In,
      seq_sort_inplace_perm h fl false In⟩
  · next hn =>
    match In, hn with
    | [], hn => exact absurd (by simp [QUICKSORT_THRESHOLD]) hn
    | d :: rest, hn =>
      dsimp only
      have hn' : 16384 ≤ (d :: rest).length := by
        simp only [QUICKSORT_THRESHOLD] at hn
        omega
      have hk33 := num_buckets_ge (d :: rest).length fl hn'
      set W := prefix_shuffle (d :: rest).length
        (block_size (d :: rest).length fl) (d :: rest) with hW
      have hWperm : W.Perm (d :: rest) := by
        rw [hW]
        exact prefix_shuffle_perm _ _ _
      have hWlen : W.length = (d :: rest).length := hWperm.length_eq
      have hbsle : block_size (d :: rest).length fl ≤ (d :: rest).length :=
        block_size_le _ fl (by simp)
      set S := quicksort less
        (W.take (block_size (d :: rest).length fl)) with hS
      have hSsorted : SortedND less S := by
        rw [hS]
        exact quicksort_sorted h _
      have hSlen : S.length = block_size (d :: rest).length fl := by
        rw [hS, (quicksort_perm h _).length_eq, List.length_take]
        omega
      set P := (List.range (num_buckets (d :: rest).length fl - 1)).map
        (fun i => S.getD (block_size (d :: rest).length fl /
          (num_buckets (d :: rest).length fl - 1) * i) d) with hP
      have hPsorted : SortedND less P := by
        rw [hP]
        refine pivots_sorted h S hSsorted _ _ d (fun i hi => ?_)
        rw [hSlen]
        exact (sampling_bounds (d :: rest).length fl i hn' hi).2.2
      have hPlen : P.length + 1 = num_buckets (d :: rest).length fl := by
        rw [hP, List.length_map, List.length_range]
        omega
      have hPne : P ≠ [] := by
        rw [hP]
        refine List.ne_nil_of_length_pos ?_
        rw [List.length_map, List.length_range]
        omega
      set RB := (chunks (block_size (d :: rest).length fl)
        (W.drop (block_size (d :: rest).length fl))).map
        (fun blk => seq_sort_ fl less false blk) with hRB
      have hBLsorted : ∀ blk ∈ S :: RB, SortedND less blk := by
        intro blk hblk
        rcases List.mem_cons.mp hblk with rfl | hm
        · exact hSsorted
        · rw [hRB] at hm
          rcases List.mem_map.mp hm with ⟨c, hc, rfl⟩
          exact seq_sort_sorted h fl false c
      have hBLperm : (S :: RB).flatten.Perm (d :: rest) := by
        rw [List.flatten_cons]
        have h1 : RB.flatten.Perm
            (W.drop (block_size (d :: rest).length fl)) := by
          rw [hRB]
          have h2 := flatten_map_perm (fun blk => seq_sort_ fl less false blk)
            id (fun c => seq_sort_perm h fl false c)
            (chunks (block_size (d :: rest).length fl)
              (W.drop (block_size (d :: rest).length fl)))
          rw [List.map_id, chunks_flatten] at h2
          exact h2
        have h3 : S.Perm (W.take (block_size (d :: rest).length fl)) := by
          rw [hS]
          exact quicksort_perm h _
        have h4 := h3.append h1
        rw [List.take_append_drop] at h4
        exact h4.trans hWperm
      have htr := transpose_char h (num_buckets (d :: rest).length fl) P
        hPsorted hPne hPlen (S :: RB) hBLsorted
      rw [htr, List.map_map]
      have hmain := assembled_out h (num_buckets (d :: rest).length fl) P
        hPsorted hPlen (S :: RB).flatten
        (fun j bkt => seq_sort_inplace fl less false bkt)
        (fun j bkt => seq_sort_inplace_perm h fl false bkt)
        (fun j hj bkt hb => seq_sort_inplace_sorted h fl false bkt)
      exact ⟨hmain.1, hmain.2.trans hBLperm⟩

/-! ## Stability: equivalence-class subsequences are preserved -/

theorem equivB_iff {less : α → α → Bool} {a b : α} :
    equivB less a b = true ↔ Equiv less a b := by
  simp [equivB, Equiv, Bool.and_eq_true, Bool.not_eq_true']

theorem oi_filter_pos {less : α → α → Bool} (h : SWO less) (x a : α)
    (ha : equivB less a x = true) :
    ∀ l : List α,
      (l.orderedInsert (fun u v => less v u = false) a).filter
        (fun y => equivB less y x) =
      a :: l.filter (fun y => equivB less y x)
  | [] => by
    rw [List.orderedInsert, List.filter_cons, if_pos ha]
  | b :: l => by
    by_cases hr : less b a = false
    · rw [List.orderedInsert, if_pos hr, List.filter_cons, if_pos ha]
    · have hba : less b a = true := by simpa using hr
      have hbx : equivB less b x = false := by
        have haE : Equiv less a x := equivB_iff.mp ha
        have hbxt : less b x = true := by
          rw [← h.lt_congr_right haE b]
          exact hba
        simp [equivB, hbxt]
      rw [List.orderedInsert, if_neg hr, List.filter_cons,
        if_neg (by simp [hbx]), oi_filter_pos h x a ha l,
        List.filter_cons, if_neg (by simp [hbx])]

theorem oi_filter_neg {less : α → α → Bool} (h : SWO less) (x a : α)
    (ha : equivB less a x = false) :
    ∀ l : List α,
      (l.orderedInsert (fun u v => less v u = false) a).filter
        (fun y => equivB less y x) =
      l.filter (fun y => equivB less y x)
  | [] => by
    rw [List.orderedInsert, List.filter_cons, if_neg (by simp [ha])]
  | b :: l => by
    by_cases hr : less b a = false
    · rw [List.orderedInsert, if_pos hr, List.filter_cons,
        if_neg (by simp [ha])]
    · rw [List.orderedInsert, if_neg hr, List.filter_cons,
        oi_filter_neg h x a ha l, List.filter_cons]

theorem insertionSort_filter_equiv {less : α → α → Bool} (h : SWO less)
    (x : α) :
    ∀ l : List α,
      (l.insertionSort (fun u v => less v u = false)).filter
        (fun y => equivB less y x) =
      l.filter (fun y => equivB less y x)
  | [] => rfl
  | a :: l => by
    rw [List.insertionSort]
    by_cases ha : equivB less a x = true
    · rw [oi_filter_pos h x a ha _, insertionSort_filter_equiv h x l,
        List.filter_cons, if_pos ha]
    · have ha' : equivB less a x = false := by simpa using ha
      rw [oi_filter_neg h x a ha' _, insertionSort_filter_equiv h x l,
        List.filter_cons, if_neg (by simp [ha'])]

theorem seq_sort_inplace_stable_filter {less : α → α → Bool} (h : SWO less)
    (fl : ElemFlags) (x : α) (l : List α) :
    (seq_sort_inplace fl less true l).filter (fun y => equivB less y x) =
      l.filter (fun y => equivB less y x) := by
  rw [seq_sort_inplace, if_neg (by simp), bucket_sort]
  exact insertionSort_filter_equiv h x l

theorem seq_sort_stable_filter {less : α → α → Bool} (h : SWO less)
    (fl : ElemFlags) (x : α) (l : List α) :
    (seq_sort_ fl less true l).filter (fun y => equivB less y x) =
      l.filter (fun y => equivB less y x) :=
  seq_sort_inplace_stable_filter h fl x l

theorem filter_equiv_same_bucket {less : α → α → Bool} (h : SWO less)
    (P : List α) (x y : α) (hxy : equivB less y x = true) :
    bucketIdx less P y = bucketIdx less P x := by
  have hE : Equiv less y x := equivB_iff.mp hxy
  cases P with
  | nil => rfl
  | cons b bs => exact bIdx_equiv_congr h hE bs b

theorem filter_bucket_absorb {less : α → α → Bool} (h : SWO less)
    (P : List α) (x : α) (l : List α) (j : ℕ)
    (hj : bucketIdx less P x = j) :
    (l.filter (fun y => bucketIdx less P y == j)).filter
      (fun y => equivB less y x) =
    l.filter (fun y => equivB less y x) := by
  rw [List.filter_filter]
  refine List.filter_congr (fun y hy => ?_)
  cases he : equivB less y x with
  | true =>
    have hsame := filter_equiv_same_bucket h P x y he
    simp [hsame, hj]
  | false => simp

theorem filter_bucket_other {less : α → α → Bool} (h : SWO less)
    (P : List α) (x : α) (l : List α) (j : ℕ)
    (hj : bucketIdx less P x ≠ j) :
    (l.filter (fun y => bucketIdx less P y == j)).filter
      (fun y => equivB less y x) = [] := by
  refine filter_nil_of _ _ (fun y hy hyx => ?_)
  have hyb : bucketIdx less P y = j := by
    simpa using (List.mem_filter.mp hy).2
  have hsame := filter_equiv_same_bucket h P x y hyx
  exact hj (by rw [← hsame]; exact hyb)

theorem flatten_eq_nil_of {f : ℕ → List α} :
    ∀ t : List ℕ, (∀ i ∈ t, f i = []) → (t.map f).flatten = []
  | [], _ => rfl
  | i :: t, hz => by
    rw [List.map_cons, List.flatten_cons, hz i (by simp), List.nil_append]
    exact flatten_eq_nil_of t (fun i' hi' => hz i' (by simp [hi']))

theorem flatten_single_nonnil {f : ℕ → List α} (j0 : ℕ) :
    ∀ js : List ℕ, js.Nodup → j0 ∈ js → (∀ j ∈ js, j ≠ j0 → f j = []) →
      (js.map f).flatten = f j0
  | [], _, hmem, _ => absurd hmem (List.not_mem_nil j0)
  | j :: t, hnd, hmem, hz => by
    by_cases hj : j = j0
    · subst hj
      have hrest : (t.map f).flatten = [] :=
        flatten_eq_nil_of t (fun i hi =>
          hz i (by simp [hi])
            (fun he => (List.nodup_cons.mp hnd).1 (by rw [← he]; exact hi)))
      rw [List.map_cons, List.flatten_cons, hrest, List.append_nil]
    · rw [List.map_cons, List.flatten_cons, hz j (by simp) hj,
        List.nil_append]
      refine flatten_single_nonnil j0 t (List.nodup_cons.mp hnd).2 ?_
        (fun i hi hne => hz i (by simp [hi]) hne)
      rcases List.mem_cons.mp hmem with he | ht
      · exact absurd he.symm hj
      · exact ht

/-! ## Stability of the copying driver with `stable = true` -/

theorem sample_sort_stable_filter {less : α → α → Bool} (h : SWO less)
    (fl : ElemFlags) (x : α) (In : List α) :
    (sample_sort_ fl less true In).filter (fun y => equivB less y x) =
      In.filter (fun y => equivB less y x) := by
  rw [sample_sort_.eq_def]
  split
  · exact seq_sort_stable_filter h fl x In
  · next hn =>
    match In, hn with
    | [], hn => rfl
    | d :: rest, hn =>
      dsimp only
      have hn' : 16384 ≤ (d :: rest).length := by
        simp only [QUICKSORT_THRESHOLD] at hn
        omega
      have hk33 := num_buckets_ge (d :: rest).length fl hn'
      set S := quicksort less
        ((List.range (num_buckets (d :: rest).length fl * OVER_SAMPLE)).map
          (fun i => (d :: rest).getD (hash64 i % (d :: rest).length) d))
        with hS
      have hSsorted : SortedND less S := by
        rw [hS]
        exact quicksort_sorted h _
      have hSlen : S.length =
          num_buckets (d :: rest).length fl * OVER_SAMPLE := by
        rw [hS, (quicksort_perm h _).length_eq, List.length_map,
          List.length_range]
      set P := (List.range (num_buckets (d :: rest).length fl - 1)).map
        (fun i => S.getD (OVER_SAMPLE * i) d) with hP
      have hPsorted : SortedND less P := by
        rw [hP]
        refine pivots_sorted h S hSsorted _ OVER_SAMPLE d (fun i hi => ?_)
        rw [hSlen]
        simp only [OVER_SAMPLE]
        omega
      have hPlen : P.length + 1 = num_buckets (d :: rest).length fl := by
        rw [hP, List.length_map, List.length_range]
        omega
      have hPne : P ≠ [] := by
        rw [hP]
        refine List.ne_nil_of_length_pos ?_
        rw [List.length_map, List.length_range]
        omega
      set SB := (chunks (block_size (d :: rest).length fl) (d :: rest)).map
        (seq_sort_ fl less true) with hSB
      have hSBsorted : ∀ blk ∈ SB, SortedND less blk := by
        rw [hSB]
        intro blk hblk
        rcases List.mem_map.mp hblk with ⟨c, hc, rfl⟩
        exact seq_sort_sorted h fl true c
      have htr := transpose_char h (num_buckets (d :: rest).length fl) P
        hPsorted hPne hPlen SB hSBsorted
      rw [htr, zip_map_self, List.map_map, filter_flatten, List.map_map]
      have hxk : bucketIdx less P x < num_buckets (d :: rest).length fl := by
        have := bucketIdx_le_len less P x
        omega
      have hfin : ∀ j : ℕ,
          ((SB.flatten.filter
            (fun y => bucketIdx less P y == j)).filter
              (fun y => equivB less y x)) =
          if j = bucketIdx less P x
            then SB.flatten.filter (fun y => equivB less y x) else [] := by
        intro j
        by_cases hjx : j = bucketIdx less P x
        · rw [if_pos hjx]
          exact filter_bucket_absorb h P x _ j hjx.symm
        · rw [if_neg hjx]
          exact filter_bucket_other h P x _ j (fun he => hjx he.symm)
      have hmapeq : (List.range (num_buckets (d :: rest).length fl)).map
          ((fun l => l.filter (fun y => equivB less y x)) ∘
            ((fun p : ℕ × List α =>
                if p.1 == 0 ||
                    p.1 == num_buckets (d :: rest).length fl - 1 ||
                    less (P.getD (p.1 - 1) d) (P.getD p.1 d)
                  then seq_sort_inplace fl less true p.2 else p.2) ∘
              (fun a => (a, SB.flatten.filter
                (fun x => bucketIdx less P x == a))))) =
          (List.range (num_buckets (d :: rest).length fl)).map
            (fun j => if j = bucketIdx less P x
              then SB.flatten.filter (fun y => equivB less y x) else []) := by
        refine List.map_congr_left (fun j hj => ?_)
        dsimp only [Function.comp]
        split
        · rw [seq_sort_inplace_stable_filter h fl x _]
          exact hfin j
        · exact hfin j
      rw [hmapeq]
      rw [flatten_single_nonnil (bucketIdx less P x) _
        (List.nodup_range _) (List.mem_range.mpr hxk)
        (fun j hj hne => if_neg hne), if_pos rfl]
      rw [hSB, filter_flatten, List.map_map]
      have hcong : (chunks (block_size (d :: rest).length fl)
          (d :: rest)).map
          ((fun l => l.filter (fun y => equivB less y x)) ∘
            seq_sort_ fl less true) =
          (chunks (block_size (d :: rest).length fl) (d :: rest)).map
            (fun c => c.filter (fun y => equivB less y x)) := by
        refine List.map_congr_left (fun c hc => ?_)
        dsimp only [Function.comp]
        exact seq_sort_stable_filter h fl x c
      rw [hcong, ← filter_flatten, chunks_flatten]

/-! ## Claims C1, C2, C3 and C7 -/

/-- Claim C1: for every input sequence and every comparator that is a
strict weak ordering, the copying entry point `sample_sort` returns a
sequence that is a permutation of the input and non-decreasing under the
comparator. -/
theorem C1_sample_sort_correct {α : Type _} {less : α → α → Bool}
    (h : SWO less) (fl : ElemFlags) (stable : Bool) (A : List α) :
    SortedND less (sample_sort fl less stable A) ∧
    (sample_sort fl less stable A).Perm A := by
  rw [sample_sort]
  split
  · exact sample_sort_main h fl stable A
  · exact sample_sort_main h fl stable A

/-- Witness for C1 at a concrete input with the `Nat` comparator. -/
theorem C1_sample_sort_correct_witness :
    SWO natLess ∧
    (SortedND natLess (sample_sort ⟨false, false⟩ natLess true [3, 1, 2]) ∧
     (sample_sort ⟨false, false⟩ natLess true [3, 1, 2]).Perm [3, 1, 2]) :=
  ⟨natLess_swo,
   C1_sample_sort_correct natLess_swo ⟨false, false⟩ true [3, 1, 2]⟩

/-- Claim C2: for every input sequence and every comparator that is a
strict weak ordering, the in-place entry point `sample_sort_inplace`
leaves the sequence holding a permutation of its original contents that
is non-decreasing under the comparator. -/
theorem C2_sample_sort_inplace_correct {α : Type _} {less : α → α → Bool}
    (h : SWO less) (fl : ElemFlags) (A : List α) :
    SortedND less (sample_sort_inplace fl less A) ∧
    (sample_sort_inplace fl less A).Perm A := by
  rw [sample_sort_inplace]
  split
  · exact sample_sort_inplace_main h fl A
  · exact sample_sort_inplace_main h fl A

/-- Witness for C2 at a concrete input with the `Nat` comparator. -/
theorem C2_sample_sort_inplace_correct_witness :
    SWO natLess ∧
    (SortedND natLess (sample_sort_inplace ⟨false, false⟩ natLess
        [3, 1, 2]) ∧
     (sample_sort_inplace ⟨false, false⟩ natLess [3, 1, 2]).Perm
       [3, 1, 2]) :=
  ⟨natLess_swo,
   C2_sample_sort_inplace_correct natLess_swo ⟨false, false⟩ [3, 1, 2]⟩

/-- Claim C3: when the copying variant runs with `stable = true`, it is
stable: filtering the output to the equivalence class of any value returns
exactly the input's subsequence of that class, in input order.  In
particular, for indices `i < j` with `A[i]` equivalent to `A[j]` under
`less`, the element originally at position `i` precedes the element
originally at position `j` in the output. -/
theorem C3_stable {α : Type _} {less : α → α → Bool} (h : SWO less)
    (fl : ElemFlags) (A : List α) (x : α) :
    (sample_sort fl less true A).filter (fun y => equivB less y x) =
      A.filter (fun y => equivB less y x) := by
  rw [sample_sort]
  split
  · exact sample_sort_stable_filter h fl x A
  · exact sample_sort_stable_filter h fl x A

/-- Witness for C3 at a concrete input (class of the duplicated value
`2`). -/
theorem C3_stable_witness :
    SWO natLess ∧
    (sample_sort ⟨false, false⟩ natLess true [2, 1, 2]).filter
      (fun y => equivB natLess y 2) =
      ([2, 1, 2] : List ℕ).filter (fun y => equivB natLess y 2) :=
  ⟨natLess_swo, C3_stable natLess_swo ⟨false, false⟩ [2, 1, 2] 2⟩

/-- Claim C7: the copying entry point only reads its input region: after
the run, the input region holds exactly its original contents (and the
freshly allocated output region holds the copying driver's result). -/
theorem C7_input_unchanged {α : Type _} (fl : ElemFlags)
    (less : α → α → Bool) (stable : Bool) (A : List α) :
    (sample_sort_entry_run fl less stable A).inp = A ∧
    (sample_sort_entry_run fl less stable A).outp =
      sample_sort_ fl less stable A := by
  rw [sample_sort_entry_run, sample_sort_run.eq_def, sample_sort_.eq_def]
  dsimp only
  by_cases hA : A.length < QUICKSORT_THRESHOLD
  · rw [if_pos hA, if_pos hA]
    exact ⟨rfl, rfl⟩
  · rw [if_neg hA, if_neg hA]
    cases A with
    | nil => exact ⟨rfl, rfl⟩
    | cons d rest => exact ⟨rfl, rfl⟩

end ParlaySort
